import Mathlib

/-!
Verification of the hybrid retrieval and ranking pipeline
(`services/retriever.py`, `services/chunking.py`, `services/highlight.py`,
`services/reranker.py`, `services/embeddings.py`).

Scores are modelled as exact rationals (`ℚ`); Python dictionaries carrying a
fixed set of keys are modelled as Lean structures; external collaborators
(search backends, the rerank HTTP call, the embedding model) are parameters,
fallible ones as `Except` values.  Python's `sorted(..., reverse=True)` is a
stable sort and is modelled by `List.insertionSort` with the reflexive
"greater or equal on the key" relation, which is stable in the same way.
-/

/-! ## List min / max helpers (Python `min(list)` / `max(list)`) -/

def listMin : List ℚ → ℚ
  | [] => 0
  | x :: xs => xs.foldl min x

def listMax : List ℚ → ℚ
  | [] => 0
  | x :: xs => xs.foldl max x

theorem foldl_min_le_init (l : List ℚ) (a : ℚ) : l.foldl min a ≤ a := by
  induction l generalizing a with
  | nil => simp
  | cons x xs ih =>
    simp only [List.foldl_cons]
    exact le_trans (ih (min a x)) (min_le_left a x)

theorem foldl_min_le_mem {l : List ℚ} {x : ℚ} (hx : x ∈ l) (a : ℚ) :
    l.foldl min a ≤ x := by
  induction l generalizing a with
  | nil => cases hx
  | cons y ys ih =>
    simp only [List.foldl_cons]
    rcases List.mem_cons.mp hx with h | h
    · subst h
      exact le_trans (foldl_min_le_init ys (min a x)) (min_le_right a x)
    · exact ih h (min a y)

theorem foldl_min_mem (l : List ℚ) (a : ℚ) :
    l.foldl min a = a ∨ l.foldl min a ∈ l := by
  induction l generalizing a with
  | nil => exact Or.inl rfl
  | cons x xs ih =>
    simp only [List.foldl_cons]
    rcases ih (min a x) with h | h
    · rcases min_cases a x with ⟨he, _⟩ | ⟨he, _⟩
      · exact Or.inl (h.trans he)
      · exact Or.inr (List.mem_cons.mpr (Or.inl (h.trans he)))
    · exact Or.inr (List.mem_cons.mpr (Or.inr h))

theorem init_le_foldl_max (l : List ℚ) (a : ℚ) : a ≤ l.foldl max a := by
  induction l generalizing a with
  | nil => simp
  | cons x xs ih =>
    simp only [List.foldl_cons]
    exact le_trans (le_max_left a x) (ih (max a x))

theorem mem_le_foldl_max {l : List ℚ} {x : ℚ} (hx : x ∈ l) (a : ℚ) :
    x ≤ l.foldl max a := by
  induction l generalizing a with
  | nil => cases hx
  | cons y ys ih =>
    simp only [List.foldl_cons]
    rcases List.mem_cons.mp hx with h | h
    · subst h
      exact le_trans (le_max_right a x) (init_le_foldl_max ys (max a x))
    · exact ih h (max a y)

theorem foldl_max_mem (l : List ℚ) (a : ℚ) :
    l.foldl max a = a ∨ l.foldl max a ∈ l := by
  induction l generalizing a with
  | nil => exact Or.inl rfl
  | cons x xs ih =>
    simp only [List.foldl_cons]
    rcases ih (max a x) with h | h
    · rcases max_cases a x with ⟨he, _⟩ | ⟨he, _⟩
      · exact Or.inl (h.trans he)
      · exact Or.inr (List.mem_cons.mpr (Or.inl (h.trans he)))
    · exact Or.inr (List.mem_cons.mpr (Or.inr h))

theorem listMin_le_mem {l : List ℚ} {x : ℚ} (hx : x ∈ l) : listMin l ≤ x := by
  cases l with
  | nil => cases hx
  | cons a as =>
    rcases List.mem_cons.mp hx with h | h
    · subst h; exact foldl_min_le_init as x
    · exact foldl_min_le_mem h a

theorem mem_le_listMax {l : List ℚ} {x : ℚ} (hx : x ∈ l) : x ≤ listMax l := by
  cases l with
  | nil => cases hx
  | cons a as =>
    rcases List.mem_cons.mp hx with h | h
    · subst h; exact init_le_foldl_max as x
    · exact mem_le_foldl_max h a

theorem listMin_mem {l : List ℚ} (h : l ≠ []) : listMin l ∈ l := by
  cases l with
  | nil => exact absurd rfl h
  | cons a as =>
    rcases foldl_min_mem as a with he | he
    · exact List.mem_cons.mpr (Or.inl (by simpa [listMin] using he))
    · exact List.mem_cons.mpr (Or.inr (by simpa [listMin] using he))

theorem listMax_mem {l : List ℚ} (h : l ≠ []) : listMax l ∈ l := by
  cases l with
  | nil => exact absurd rfl h
  | cons a as =>
    rcases foldl_max_mem as a with he | he
    · exact List.mem_cons.mpr (Or.inl (by simpa [listMax] using he))
    · exact List.mem_cons.mpr (Or.inr (by simpa [listMax] using he))

/-! ## Retrieval candidates (`services/retriever.py`)

A candidate dictionary as produced by one retriever call: `doc_id`, raw
`score`, optional `metadata.year`, and the `source` tag that `hybrid_search`
stamps on BM25 results. -/

structure Cand where
  doc_id : String
  score : ℚ
  year : Option Int := none
  source : String := ""
  deriving DecidableEq, Repr

/-- A candidate after `normalize_scores` has attached `score_norm`. -/
structure NCand where
  cand : Cand
  score_norm : ℚ
  deriving DecidableEq, Repr

/-- `normalize_scores` (retriever.py lines 24-51): min-max normalize; when
`max_score == min_score` every normalized score is set to `1.0`. -/
def normalize_scores (results : List Cand) : List NCand :=
  match results with
  | [] => []
  | _ :: _ =>
    let scores := results.map (fun r => r.score)
    let min_score := listMin scores
    let max_score := listMax scores
    if max_score = min_score then
      results.map (fun r => ⟨r, 1⟩)
    else
      results.map (fun r => ⟨r, (r.score - min_score) / (max_score - min_score)⟩)

/-- C2: for every non-empty input list, `normalize_scores` yields scores in
`[0,1]`, maps every maximum input score to exactly `1`, and maps every score
to `1` (not `0`) when all input scores are equal. -/
theorem normalize_scores_unit_interval (results : List Cand) (hne : results ≠ []) :
    (∀ p ∈ normalize_scores results, 0 ≤ p.score_norm ∧ p.score_norm ≤ 1) ∧
    (∀ p ∈ normalize_scores results,
       p.cand.score = listMax (results.map (fun r => r.score)) → p.score_norm = 1) ∧
    ((∀ r ∈ results, ∀ r' ∈ results, r.score = r'.score) →
       ∀ p ∈ normalize_scores results, p.score_norm = 1) := by
  cases results with
  | nil => exact absurd rfl hne
  | cons a as =>
    set rs : List Cand := a :: as with hrs
    set scores : List ℚ := rs.map (fun r => r.score) with hscores
    have hscne : scores ≠ [] := by simp [hscores, hrs]
    have hminmax : listMin scores ≤ listMax scores :=
      le_trans (listMin_le_mem (x := a.score) (by simp [hscores, hrs]))
        (mem_le_listMax (by simp [hscores, hrs]))
    by_cases heq : listMax scores = listMin scores
    · have hnorm : normalize_scores rs = rs.map (fun r => ⟨r, 1⟩) := by
        rw [hrs, normalize_scores]
        simp only [← hrs, ← hscores, if_pos heq]
      refine ⟨?_, ?_, ?_⟩
      · intro p hp
        rw [hnorm] at hp
        rcases List.mem_map.mp hp with ⟨r, _, hr⟩
        subst hr
        exact ⟨zero_le_one, le_refl 1⟩
      · intro p hp _
        rw [hnorm] at hp
        rcases List.mem_map.mp hp with ⟨r, _, hr⟩
        subst hr
        rfl
      · intro _ p hp
        rw [hnorm] at hp
        rcases List.mem_map.mp hp with ⟨r, _, hr⟩
        subst hr
        rfl
    · have hlt : listMin scores < listMax scores :=
        lt_of_le_of_ne hminmax (fun h => heq h.symm)
      have hpos : 0 < listMax scores - listMin scores := sub_pos.mpr hlt
      have hnorm : normalize_scores rs =
          rs.map (fun r => ⟨r, (r.score - listMin scores) / (listMax scores - listMin scores)⟩) := by
        rw [hrs, normalize_scores]
        simp only [← hrs, ← hscores, if_neg heq]
      refine ⟨?_, ?_, ?_⟩
      · intro p hp
        rw [hnorm] at hp
        rcases List.mem_map.mp hp with ⟨r, hrmem, hr⟩
        subst hr
        have hminr : listMin scores ≤ r.score :=
          listMin_le_mem (List.mem_map.mpr ⟨r, hrmem, rfl⟩)
        have hmaxr : r.score ≤ listMax scores :=
          mem_le_listMax (List.mem_map.mpr ⟨r, hrmem, rfl⟩)
        constructor
        · exact div_nonneg (sub_nonneg.mpr hminr) (le_of_lt hpos)
        · rw [div_le_one hpos]
          exact sub_le_sub_right hmaxr _
      · intro p hp hmax
        rw [hnorm] at hp
        rcases List.mem_map.mp hp with ⟨r, _, hr⟩
        subst hr
        simp only at hmax ⊢
        rw [hmax]
        exact div_self (ne_of_gt hpos)
      · intro hall p hp
        exfalso
        have hminmem := listMin_mem hscne
        have hmaxmem := listMax_mem hscne
        rcases List.mem_map.mp hminmem with ⟨rmin, hrmin, hmin⟩
        rcases List.mem_map.mp hmaxmem with ⟨rmax, hrmax, hmax⟩
        exact heq (by rw [← hmin, ← hmax, hall rmax hrmax rmin hrmin])

/-- Witness for C2 at the concrete list `[{A, 10}, {B, 5}]`. -/
theorem normalize_scores_unit_interval_witness :
    ([⟨"A", 10, none, ""⟩, ⟨"B", 5, none, ""⟩] : List Cand) ≠ [] ∧
    (∀ p ∈ normalize_scores [⟨"A", 10, none, ""⟩, ⟨"B", 5, none, ""⟩],
       0 ≤ p.score_norm ∧ p.score_norm ≤ 1) :=
  ⟨by simp,
   (normalize_scores_unit_interval [⟨"A", 10, none, ""⟩, ⟨"B", 5, none, ""⟩]
     (by simp)).1⟩

/-! ## Blending (`dedupe_and_blend`, retriever.py lines 54-121) -/

def BM25_WEIGHT : ℚ := 0.6

def ANN_WEIGHT : ℚ := 0.4

/-- One entry of the `doc_scores` mapping / of the blended output: a shallow
copy (`{**result, ...}`) of the originating candidate dictionary plus the
keys added during blending. -/
structure Blended where
  doc_id : String
  score : ℚ
  score_norm : ℚ
  year : Option Int
  source : String
  bm25_score : ℚ
  ann_score : ℚ
  sources : List String
  deriving DecidableEq, Repr

/-- The dictionary built at retriever.py lines 80-85 for a BM25 result. -/
def mkFromBm25 (n : NCand) : Blended :=
  { doc_id := n.cand.doc_id, score := n.cand.score, score_norm := n.score_norm,
    year := n.cand.year, source := n.cand.source,
    bm25_score := n.score_norm, ann_score := 0, sources := ["bm25"] }

/-- The dictionary built at retriever.py lines 94-99 for an ANN-only result. -/
def mkFromAnn (n : NCand) : Blended :=
  { doc_id := n.cand.doc_id, score := n.cand.score, score_norm := n.score_norm,
    year := n.cand.year, source := n.cand.source,
    bm25_score := 0, ann_score := n.score_norm, sources := ["ann"] }

/-- `doc_scores[doc_id] = {...}` for a BM25 result: replace in place if the
key exists (Python dicts keep the original insertion position), else append. -/
def upsertBm25 (m : List Blended) (n : NCand) : List Blended :=
  if m.any (fun x => x.doc_id = n.cand.doc_id) then
    m.map (fun x => if x.doc_id = n.cand.doc_id then mkFromBm25 n else x)
  else m ++ [mkFromBm25 n]

/-- The in-place update at retriever.py lines 91-92: record the ANN score
and append `"ann"` to `sources`. -/
def annUpdate (x : Blended) (n : NCand) : Blended :=
  { x with ann_score := n.score_norm, sources := x.sources ++ ["ann"] }

/-- The ANN merge loop body (retriever.py lines 88-99). -/
def annStep (m : List Blended) (n : NCand) : List Blended :=
  if m.any (fun x => x.doc_id = n.cand.doc_id) then
    m.map (fun x => if x.doc_id = n.cand.doc_id then annUpdate x n else x)
  else m ++ [mkFromAnn n]

/-- The hybrid-score pass (retriever.py lines 102-107): overwrite `score`
with `0.6 * bm25_score + 0.4 * ann_score`. -/
def setHybrid (x : Blended) : Blended :=
  { x with score := BM25_WEIGHT * x.bm25_score + ANN_WEIGHT * x.ann_score }

/-- The sort key comparison of retriever.py lines 110-114: Python compares
the tuples `(score, metadata.get("year", 0))` lexicographically. -/
def blendKeyLe (x y : Blended) : Prop :=
  x.score < y.score ∨ (x.score = y.score ∧ x.year.getD 0 ≤ y.year.getD 0)

/-- `blendGe x y` holds when `x` may precede `y` in the `reverse=True`
(descending, stable) sort. -/
def blendGe (x y : Blended) : Prop := blendKeyLe y x

instance : DecidableRel blendKeyLe := fun x y =>
  inferInstanceAs (Decidable (x.score < y.score ∨
    (x.score = y.score ∧ x.year.getD 0 ≤ y.year.getD 0)))

instance : DecidableRel blendGe := fun x y =>
  inferInstanceAs (Decidable (blendKeyLe y x))

instance : IsTotal Blended blendGe where
  total := by
    intro a b
    rcases lt_trichotomy a.score b.score with h | h | h
    · exact Or.inr (Or.inl h)
    · rcases le_total (a.year.getD 0) (b.year.getD 0) with hy | hy
      · exact Or.inr (Or.inr ⟨h, hy⟩)
      · exact Or.inl (Or.inr ⟨h.symm, hy⟩)
    · exact Or.inl (Or.inl h)

instance : IsTrans Blended blendGe where
  trans := by
    intro a b c hab hbc
    rcases hab with h1 | ⟨h1, h1y⟩
    · rcases hbc with h2 | ⟨h2, _⟩
      · exact Or.inl (h2.trans h1)
      · exact Or.inl (h2 ▸ h1)
    · rcases hbc with h2 | ⟨h2, h2y⟩
      · exact Or.inl (h1 ▸ h2)
      · exact Or.inr ⟨h2.trans h1, h2y.trans h1y⟩

/-- `dedupe_and_blend` (retriever.py lines 54-121): normalize each list,
merge by `doc_id` (BM25 first, then ANN), compute hybrid scores, and sort
descending by `(score, year)` with Python's stable `sorted(reverse=True)`. -/
def dedupe_and_blend (bm25_results ann_results : List Cand) : List Blended :=
  let nb := normalize_scores bm25_results
  let na := normalize_scores ann_results
  let m1 := nb.foldl upsertBm25 []
  let m2 := na.foldl annStep m1
  let m3 := m2.map setHybrid
  List.insertionSort blendGe m3

/-- `hybrid_search` (retriever.py lines 124-197): the three fallible backend
calls are `Except` parameters; each failure is caught, contributes no
candidates, and leaves a log entry (`logger.error`).  The query embedding and
the Pinecone filter construction are external effects that do not change the
result shape, so they are not modelled. -/
def hybrid_search (papersCall startupsCall annCall : Except String (List Cand))
    (source_filter : Option (List String)) (top_k : Nat) :
    List Blended × List String :=
  let search_papers := match source_filter with
    | none => true
    | some l => l.isEmpty || l.contains "papers"
  let search_startups := match source_filter with
    | none => true
    | some l => l.isEmpty || l.contains "startups"
  let papersPart : List Cand × List String :=
    if search_papers then
      match papersCall with
      | .ok rs => (rs.map (fun r => { r with source := "papers" }), [])
      | .error e => ([], ["BM25 papers search failed: " ++ e])
    else ([], [])
  let startupsPart : List Cand × List String :=
    if search_startups then
      match startupsCall with
      | .ok rs => (rs.map (fun r => { r with source := "startups" }), [])
      | .error e => ([], ["BM25 startups search failed: " ++ e])
    else ([], [])
  let annPart : List Cand × List String :=
    match annCall with
    | .ok rs => (rs, [])
    | .error e => ([], ["Vector search failed: " ++ e])
  let blended := dedupe_and_blend (papersPart.1 ++ startupsPart.1) annPart.1
  (blended.take top_k, papersPart.2 ++ startupsPart.2 ++ annPart.2)

/-- C4: the blended list is sorted descending by hybrid score with ties
broken by descending year (missing year read as `0`), and `hybrid_search`
truncates the blended list to at most `top_k` results (which stay sorted). -/
theorem dedupe_and_blend_sorted_hybrid_search_truncates
    (bm25 ann : List Cand)
    (papersCall startupsCall annCall : Except String (List Cand))
    (sf : Option (List String)) (top_k : Nat) :
    List.Pairwise (fun a b => b.score < a.score ∨
        (b.score = a.score ∧ b.year.getD 0 ≤ a.year.getD 0))
      (dedupe_and_blend bm25 ann) ∧
    List.Pairwise (fun a b => b.score < a.score ∨
        (b.score = a.score ∧ b.year.getD 0 ≤ a.year.getD 0))
      (hybrid_search papersCall startupsCall annCall sf top_k).1 ∧
    (hybrid_search papersCall startupsCall annCall sf top_k).1.length ≤ top_k := by
  have hsort : ∀ l : List Blended,
      List.Pairwise blendGe (List.insertionSort blendGe l) :=
    fun l => List.sorted_insertionSort blendGe l
  refine ⟨hsort _, ?_, ?_⟩
  · exact List.Pairwise.sublist (List.take_sublist _ _) (hsort _)
  · show ((dedupe_and_blend _ _).take top_k).length ≤ top_k
    rw [List.length_take]
    exact min_le_left _ _

/-! ## Merge characterization lemmas for C3 -/

theorem normalize_scores_cands (l : List Cand) :
    (normalize_scores l).map (fun n => n.cand) = l := by
  cases l with
  | nil => rfl
  | cons a as =>
    rw [normalize_scores]
    split
    · rw [List.map_map]
      exact List.map_id (a :: as)
    · rw [List.map_map]
      exact List.map_id (a :: as)

theorem normalize_scores_ids (l : List Cand) :
    (normalize_scores l).map (fun n => n.cand.doc_id) = l.map (fun r => r.doc_id) := by
  have h := normalize_scores_cands l
  calc (normalize_scores l).map (fun n => n.cand.doc_id)
      = ((normalize_scores l).map (fun n => n.cand)).map (fun r => r.doc_id) := by
        rw [List.map_map]; rfl
    _ = l.map (fun r => r.doc_id) := by rw [h]

/-- The normalized score recorded for doc `d` in list `l` (0 when absent). -/
def normOf (d : String) (l : List Cand) : ℚ :=
  match (normalize_scores l).find? (fun n => n.cand.doc_id = d) with
  | some n => n.score_norm
  | none => 0

theorem find_doc_of_nodup (l : List NCand) (d : String) (n : NCand)
    (hmem : n ∈ l) (hd : n.cand.doc_id = d)
    (hnodup : (l.map (fun x => x.cand.doc_id)).Nodup) :
    l.find? (fun x => x.cand.doc_id = d) = some n := by
  induction l with
  | nil => cases hmem
  | cons a rest ih =>
    rcases List.mem_cons.mp hmem with h | h
    · subst h
      exact List.find?_cons_of_pos _ (by simpa using hd)
    · have hne : a.cand.doc_id ≠ d := by
        intro had
        have hdm : d ∈ rest.map (fun x => x.cand.doc_id) :=
          List.mem_map.mpr ⟨n, h, hd⟩
        have : a.cand.doc_id ∈ rest.map (fun x => x.cand.doc_id) := by
          rw [had]; exact hdm
        exact (List.nodup_cons.mp hnodup).1 this
      rw [List.find?_cons_of_neg _ (by simpa using hne)]
      exact ih h (List.nodup_cons.mp hnodup).2

theorem foldl_upsertBm25_eq (nb : List NCand) :
    ∀ acc : List Blended,
      (nb.map (fun n => n.cand.doc_id)).Nodup →
      (∀ n ∈ nb, ∀ x ∈ acc, x.doc_id ≠ n.cand.doc_id) →
      nb.foldl upsertBm25 acc = acc ++ nb.map mkFromBm25 := by
  induction nb with
  | nil => intro acc _ _; simp
  | cons n rest ih =>
    intro acc hnodup hdisj
    have hany : acc.any (fun x => x.doc_id = n.cand.doc_id) = false := by
      simp only [List.any_eq_false, decide_eq_true_eq]
      intro x hx
      exact hdisj n (List.mem_cons_self n rest) x hx
    have hstep : upsertBm25 acc n = acc ++ [mkFromBm25 n] := by
      rw [upsertBm25, hany]
      rfl
    rw [List.foldl_cons, hstep,
      ih (acc ++ [mkFromBm25 n]) (List.nodup_cons.mp hnodup).2 ?_]
    · simp
    · intro n' hn' x hx
      rcases List.mem_append.mp hx with hxa | hxm
      · exact hdisj n' (List.mem_cons_of_mem n hn') x hxa
      · have hx1 : x = mkFromBm25 n := by simpa using hxm
        subst hx1
        show n.cand.doc_id ≠ n'.cand.doc_id
        intro hcontra
        have : n.cand.doc_id ∈ rest.map (fun m => m.cand.doc_id) := by
          rw [hcontra]; exact List.mem_map.mpr ⟨n', hn', rfl⟩
        exact (List.nodup_cons.mp hnodup).1 this

theorem annFold_preserves (na : List NCand) :
    ∀ (m : List Blended) (e : Blended),
      e ∈ m → (∀ n ∈ na, n.cand.doc_id ≠ e.doc_id) →
      e ∈ na.foldl annStep m := by
  induction na with
  | nil => intro m e he _; simpa using he
  | cons n rest ih =>
    intro m e he hdisj
    rw [List.foldl_cons]
    refine ih (annStep m n) e ?_ (fun n' hn' => hdisj n' (List.mem_cons_of_mem n hn'))
    rw [annStep]
    split
    · refine List.mem_map.mpr ⟨e, he, ?_⟩
      rw [if_neg]
      intro hcontra
      exact hdisj n (List.mem_cons_self n rest) hcontra.symm
    · exact List.mem_append.mpr (Or.inl he)

theorem annFold_updates (na : List NCand) :
    ∀ (m : List Blended) (e : Blended) (n0 : NCand),
      e ∈ m → n0 ∈ na → n0.cand.doc_id = e.doc_id →
      (na.map (fun n => n.cand.doc_id)).Nodup →
      annUpdate e n0 ∈ na.foldl annStep m := by
  induction na with
  | nil => intro m e n0 _ h0 _ _; cases h0
  | cons n rest ih =>
    intro m e n0 he h0 hid hnodup
    rw [List.foldl_cons]
    by_cases hcase : n.cand.doc_id = e.doc_id
    · have hn0 : n0 = n := by
        rcases List.mem_cons.mp h0 with h | h
        · exact h
        · exfalso
          have : n.cand.doc_id ∈ rest.map (fun m => m.cand.doc_id) := by
            rw [hcase, ← hid]
            exact List.mem_map.mpr ⟨n0, h, rfl⟩
          exact (List.nodup_cons.mp hnodup).1 this
      subst hn0
      have hany : m.any (fun x => x.doc_id = n0.cand.doc_id) = true := by
        simp only [List.any_eq_true, decide_eq_true_eq]
        exact ⟨e, he, hcase.symm⟩
      have hstep : annUpdate e n0 ∈ annStep m n0 := by
        rw [annStep, hany]
        simp only [if_true]
        exact List.mem_map.mpr ⟨e, he, by rw [if_pos hcase.symm]⟩
      refine annFold_preserves rest (annStep m n0) _ hstep ?_
      intro n' hn' hcontra
      have hcontra' : n'.cand.doc_id = e.doc_id := by
        simpa [annUpdate] using hcontra
      have : n0.cand.doc_id ∈ rest.map (fun m => m.cand.doc_id) := by
        rw [hid, ← hcontra']
        exact List.mem_map.mpr ⟨n', hn', rfl⟩
      exact (List.nodup_cons.mp hnodup).1 this
    · have h0' : n0 ∈ rest := by
        rcases List.mem_cons.mp h0 with h | h
        · exact absurd (h ▸ hid) hcase
        · exact h
      refine ih (annStep m n) e n0 ?_ h0' hid (List.nodup_cons.mp hnodup).2
      rw [annStep]
      split
      · exact List.mem_map.mpr ⟨e, he, by rw [if_neg (fun hc => hcase hc.symm)]⟩
      · exact List.mem_append.mpr (Or.inl he)

theorem annFold_inserts (na : List NCand) :
    ∀ (m : List Blended) (n0 : NCand),
      n0 ∈ na →
      (∀ x ∈ m, x.doc_id ≠ n0.cand.doc_id) →
      (na.map (fun n => n.cand.doc_id)).Nodup →
      mkFromAnn n0 ∈ na.foldl annStep m := by
  induction na with
  | nil => intro m n0 h0 _ _; cases h0
  | cons n rest ih =>
    intro m n0 h0 hfresh hnodup
    rw [List.foldl_cons]
    by_cases hn0 : n0 = n
    · subst hn0
      have hany : m.any (fun x => x.doc_id = n0.cand.doc_id) = false := by
        simp only [List.any_eq_false, decide_eq_true_eq]
        exact hfresh
      have hstep : annStep m n0 = m ++ [mkFromAnn n0] := by
        rw [annStep, hany]
        rfl
      rw [hstep]
      refine annFold_preserves rest _ _ (List.mem_append.mpr (Or.inr (by simp))) ?_
      intro n' hn' hcontra
      have hcontra' : n'.cand.doc_id = n0.cand.doc_id := by
        simpa [mkFromAnn] using hcontra
      have : n0.cand.doc_id ∈ rest.map (fun m => m.cand.doc_id) := by
        rw [← hcontra']
        exact List.mem_map.mpr ⟨n', hn', rfl⟩
      exact (List.nodup_cons.mp hnodup).1 this
    · have h0' : n0 ∈ rest := by
        rcases List.mem_cons.mp h0 with h | h
        · exact absurd h hn0
        · exact h
      refine ih (annStep m n) n0 h0' ?_ (List.nodup_cons.mp hnodup).2
      intro x hx
      rw [annStep] at hx
      split at hx
      · rcases List.mem_map.mp hx with ⟨y, hy, hyx⟩
        subst hyx
        split
        · exact hfresh y hy
        · exact hfresh y hy
      · rcases List.mem_append.mp hx with hxm | hx1
        · exact hfresh x hxm
        · have hx2 : x = mkFromAnn n := by simpa using hx1
          subst hx2
          show n.cand.doc_id ≠ n0.cand.doc_id
          intro hcontra
          have : n.cand.doc_id ∈ rest.map (fun m => m.cand.doc_id) := by
            rw [hcontra]
            exact List.mem_map.mpr ⟨n0, h0', rfl⟩
          exact (List.nodup_cons.mp hnodup).1 this

theorem mem_dedupe_and_blend {bm25 ann : List Cand} {x : Blended}
    (hx : x ∈ ((normalize_scores ann).foldl annStep
        ((normalize_scores bm25).foldl upsertBm25 [])).map setHybrid) :
    x ∈ dedupe_and_blend bm25 ann := by
  simp only [dedupe_and_blend]
  exact (List.perm_insertionSort blendGe _).symm.subset hx

/-- C3: for deduplicated candidate lists, a `doc_id` present in both lists
gets a blended result whose `sources` contain both `"bm25"` and `"ann"` and
whose score is exactly `0.6 * lexical_norm + 0.4 * vector_norm`; a `doc_id`
present only in the vector list gets a zero lexical contribution. -/
theorem dedupe_and_blend_blending (bm25 ann : List Cand)
    (hb : (bm25.map (fun r => r.doc_id)).Nodup)
    (ha : (ann.map (fun r => r.doc_id)).Nodup) (d : String) :
    (d ∈ bm25.map (fun r => r.doc_id) → d ∈ ann.map (fun r => r.doc_id) →
       ∃ r ∈ dedupe_and_blend bm25 ann, r.doc_id = d ∧
         "bm25" ∈ r.sources ∧ "ann" ∈ r.sources ∧
         r.bm25_score = normOf d bm25 ∧ r.ann_score = normOf d ann ∧
         r.score = 0.6 * normOf d bm25 + 0.4 * normOf d ann) ∧
    (d ∉ bm25.map (fun r => r.doc_id) → d ∈ ann.map (fun r => r.doc_id) →
       ∃ r ∈ dedupe_and_blend bm25 ann, r.doc_id = d ∧
         r.sources = ["ann"] ∧ r.bm25_score = 0 ∧
         r.score = 0.6 * 0 + 0.4 * normOf d ann) := by
  have hnbids : ((normalize_scores bm25).map (fun n => n.cand.doc_id)).Nodup := by
    rw [normalize_scores_ids]; exact hb
  have hnaids : ((normalize_scores ann).map (fun n => n.cand.doc_id)).Nodup := by
    rw [normalize_scores_ids]; exact ha
  have hm1 : (normalize_scores bm25).foldl upsertBm25 [] =
      (normalize_scores bm25).map mkFromBm25 := by
    rw [foldl_upsertBm25_eq (normalize_scores bm25) [] hnbids (by simp)]
    simp
  constructor
  · intro hdb hda
    rcases List.mem_map.mp hdb with ⟨rb, hrbmem, hrbid⟩
    have hrb' : rb ∈ (normalize_scores bm25).map (fun n => n.cand) := by
      rw [normalize_scores_cands]; exact hrbmem
    rcases List.mem_map.mp hrb' with ⟨nb, hnbmem, hnbcand⟩
    rcases List.mem_map.mp hda with ⟨ra, hramem, hraid⟩
    have hra' : ra ∈ (normalize_scores ann).map (fun n => n.cand) := by
      rw [normalize_scores_cands]; exact hramem
    rcases List.mem_map.mp hra' with ⟨na, hnamem, hnacand⟩
    have hnbid : nb.cand.doc_id = d := by rw [hnbcand, hrbid]
    have hnaid : na.cand.doc_id = d := by rw [hnacand, hraid]
    have he : mkFromBm25 nb ∈ (normalize_scores bm25).foldl upsertBm25 [] := by
      rw [hm1]; exact List.mem_map.mpr ⟨nb, hnbmem, rfl⟩
    have hupd : annUpdate (mkFromBm25 nb) na ∈
        (normalize_scores ann).foldl annStep
          ((normalize_scores bm25).foldl upsertBm25 []) :=
      annFold_updates (normalize_scores ann) _ (mkFromBm25 nb) na he hnamem
        (by rw [hnaid]; exact hnbid.symm ▸ (by rw [hnbid]; exact (by simp [mkFromBm25, hnbid]))) hnaids
    refine ⟨setHybrid (annUpdate (mkFromBm25 nb) na),
      mem_dedupe_and_blend (List.mem_map.mpr ⟨_, hupd, rfl⟩), ?_, ?_, ?_, ?_, ?_, ?_⟩
    · simp [setHybrid, annUpdate, mkFromBm25, hnbid]
    · simp [setHybrid, annUpdate, mkFromBm25]
    · simp [setHybrid, annUpdate, mkFromBm25]
    · have hfind := find_doc_of_nodup (normalize_scores bm25) d nb hnbmem hnbid hnbids
      simp [setHybrid, annUpdate, mkFromBm25, normOf, hfind]
    · have hfind := find_doc_of_nodup (normalize_scores ann) d na hnamem hnaid hnaids
      simp [setHybrid, annUpdate, mkFromBm25, normOf, hfind]
    · have hfindb := find_doc_of_nodup (normalize_scores bm25) d nb hnbmem hnbid hnbids
      have hfinda := find_doc_of_nodup (normalize_scores ann) d na hnamem hnaid hnaids
      simp [setHybrid, annUpdate, mkFromBm25, normOf, hfindb, hfinda,
        BM25_WEIGHT, ANN_WEIGHT]
  · intro hdb hda
    rcases List.mem_map.mp hda with ⟨ra, hramem, hraid⟩
    have hra' : ra ∈ (normalize_scores ann).map (fun n => n.cand) := by
      rw [normalize_scores_cands]; exact hramem
    rcases List.mem_map.mp hra' with ⟨na, hnamem, hnacand⟩
    have hnaid : na.cand.doc_id = d := by rw [hnacand, hraid]
    have hfresh : ∀ x ∈ (normalize_scores bm25).foldl upsertBm25 [],
        x.doc_id ≠ na.cand.doc_id := by
      intro x hx
      rw [hm1] at hx
      rcases List.mem_map.mp hx with ⟨n, hn, hxn⟩
      subst hxn
      show n.cand.doc_id ≠ na.cand.doc_id
      intro hcontra
      refine hdb ?_
      have : n.cand.doc_id ∈ (normalize_scores bm25).map (fun m => m.cand.doc_id) :=
        List.mem_map.mpr ⟨n, hn, rfl⟩
      rw [normalize_scores_ids] at this
      rw [← hnaid, ← hcontra]
      exact this
    have hins : mkFromAnn na ∈
        (normalize_scores ann).foldl annStep
          ((normalize_scores bm25).foldl upsertBm25 []) :=
      annFold_inserts (normalize_scores ann) _ na hnamem hfresh hnaids
    refine ⟨setHybrid (mkFromAnn na),
      mem_dedupe_and_blend (List.mem_map.mpr ⟨_, hins, rfl⟩), ?_, ?_, ?_, ?_⟩
    · simp [setHybrid, mkFromAnn, hnaid]
    · simp [setHybrid, mkFromAnn]
    · simp [setHybrid, mkFromAnn]
    · have hfinda := find_doc_of_nodup (normalize_scores ann) d na hnamem hnaid hnaids
      simp [setHybrid, mkFromAnn, normOf, hfinda, BM25_WEIGHT, ANN_WEIGHT]

/-- Witness for C3 at the lists `[{A, 10}]` and `[{A, 0.9}, {B, 0.5}]`. -/
theorem dedupe_and_blend_blending_witness :
    ((([⟨"A", 10, none, ""⟩] : List Cand).map (fun r => r.doc_id)).Nodup ∧
     (([⟨"A", 9/10, none, ""⟩, ⟨"B", 1/2, none, ""⟩] : List Cand).map
        (fun r => r.doc_id)).Nodup ∧
     "A" ∈ ([⟨"A", 10, none, ""⟩] : List Cand).map (fun r => r.doc_id) ∧
     "A" ∈ ([⟨"A", 9/10, none, ""⟩, ⟨"B", 1/2, none, ""⟩] : List Cand).map
        (fun r => r.doc_id)) ∧
    (∃ r ∈ dedupe_and_blend [⟨"A", 10, none, ""⟩]
        [⟨"A", 9/10, none, ""⟩, ⟨"B", 1/2, none, ""⟩], r.doc_id = "A" ∧
       "bm25" ∈ r.sources ∧ "ann" ∈ r.sources ∧
       r.bm25_score = normOf "A" [⟨"A", 10, none, ""⟩] ∧
       r.ann_score = normOf "A" [⟨"A", 9/10, none, ""⟩, ⟨"B", 1/2, none, ""⟩] ∧
       r.score = 0.6 * normOf "A" [⟨"A", 10, none, ""⟩] +
         0.4 * normOf "A" [⟨"A", 9/10, none, ""⟩, ⟨"B", 1/2, none, ""⟩]) :=
  ⟨⟨by simp, by simp, by simp, by simp⟩,
   (dedupe_and_blend_blending [⟨"A", 10, none, ""⟩]
      [⟨"A", 9/10, none, ""⟩, ⟨"B", 1/2, none, ""⟩]
      (by simp) (by simp) "A").1 (by simp) (by simp)⟩

/-! ## The worked blending example (C1) -/

/-- The lexical candidate list of the worked example. -/
def exBm25 : List Cand := [⟨"A", 10, none, ""⟩]

/-- The vector candidate list of the worked example. -/
def exAnn : List Cand := [⟨"A", 9/10, none, ""⟩, ⟨"B", 1/2, none, ""⟩]

/-- C1 (counterexample): on the worked example the claim's values for "B"
are wrong: the code min-max normalizes the vector list *before*
deduplication, so "B" gets vector norm `(0.5-0.5)/(0.9-0.5) = 0` and hybrid
score `0`, not vector norm `1.0` and hybrid score `0.4`. -/
theorem dedupe_and_blend_example_not_as_claimed :
    ¬ (∀ r ∈ dedupe_and_blend exBm25 exAnn,
        r.doc_id = "B" → r.ann_score = 1 ∧ r.score = 0.4) := by
  intro h
  have heval : dedupe_and_blend exBm25 exAnn =
      [⟨"A", 1, 1, none, "", 1, 1, ["bm25", "ann"]⟩,
       ⟨"B", 0, 0, none, "", 0, 0, ["ann"]⟩] := by
    norm_num [dedupe_and_blend, exBm25, exAnn, normalize_scores, listMin, listMax,
      upsertBm25, annStep, annUpdate, mkFromBm25, mkFromAnn, setHybrid,
      BM25_WEIGHT, ANN_WEIGHT, List.insertionSort, List.orderedInsert,
      blendGe, blendKeyLe]
  have hB : (⟨"B", 0, 0, none, "", 0, 0, ["ann"]⟩ : Blended) ∈
      dedupe_and_blend exBm25 exAnn := by
    rw [heval]; simp
  have := (h _ hB rfl).1
  norm_num at this

/-- C1 (amended): blending `[{A,10}]` with `[{A,0.9},{B,0.5}]` yields exactly
two results: "A" first with sources `["bm25","ann"]` and hybrid score
`0.6*1 + 0.4*1 = 1`, then "B" with sources `["ann"]`, lexical norm `0`,
vector norm `0` (min-max over the full vector list, before deduplication)
and hybrid score `0`. -/
theorem dedupe_and_blend_example :
    dedupe_and_blend exBm25 exAnn =
      [⟨"A", 1, 1, none, "", 1, 1, ["bm25", "ann"]⟩,
       ⟨"B", 0, 0, none, "", 0, 0, ["ann"]⟩] := by
  norm_num [dedupe_and_blend, exBm25, exAnn, normalize_scores, listMin, listMax,
    upsertBm25, annStep, annUpdate, mkFromBm25, mkFromAnn, setHybrid,
    BM25_WEIGHT, ANN_WEIGHT, List.insertionSort, List.orderedInsert,
    blendGe, blendKeyLe]

/-- C8: a single-backend failure is caught inside `hybrid_search` (the model
of the `try/except` blocks at retriever.py lines 154-192): with the vector
call failing the call still returns, producing the blend of the lexical
results alone, and with both lexical calls failing it produces the blend of
the vector results alone; in both cases the caught error leaves a non-empty
internal error log, so the degraded mode is observable. -/
theorem hybrid_search_single_backend_failure
    (papers startups ann : List Cand) (ep es ea : String) (top_k : Nat) :
    ((hybrid_search (.ok papers) (.ok startups) (.error ea) none top_k).1 =
       (dedupe_and_blend (papers.map (fun r => { r with source := "papers" }) ++
          startups.map (fun r => { r with source := "startups" })) []).take top_k ∧
     (hybrid_search (.ok papers) (.ok startups) (.error ea) none top_k).2 ≠ []) ∧
    ((hybrid_search (.error ep) (.error es) (.ok ann) none top_k).1 =
       (dedupe_and_blend [] ann).take top_k ∧
     (hybrid_search (.error ep) (.error es) (.ok ann) none top_k).2 ≠ []) := by
  refine ⟨⟨rfl, by simp [hybrid_search]⟩, ⟨rfl, by simp [hybrid_search]⟩⟩

/-! ## Sentence splitting (`split_into_sentences`, chunking.py lines 18-31)

The Python splitter is `re.split` on a whitespace run preceded by `.`, `!`
or `?`.  `splitGo` is the equivalent one-pass scanner: `acc` is the current
piece (reversed), `skipping` is true while consuming the whitespace run that
follows an emitted piece (during which `acc` is empty). -/

def isWs (c : Char) : Bool :=
  c = ' ' || c = '\t' || c = '\n' || c = '\r' || c = '\x0b' || c = '\x0c'

def isSentEnd (c : Char) : Bool :=
  c = '.' || c = '!' || c = '?'

def headIsWs : List Char → Bool
  | [] => false
  | c :: _ => isWs c

def splitGo : List Char → List Char → Bool → List (List Char)
  | [], acc, _ => [acc.reverse]
  | c :: rest, acc, skipping =>
    if skipping && isWs c then
      splitGo rest acc true
    else if isSentEnd c && headIsWs rest then
      (c :: acc).reverse :: splitGo rest [] true
    else
      splitGo rest (c :: acc) false

/-- Python `str.strip()` restricted to the same whitespace set. -/
def trim (l : List Char) : List Char :=
  ((l.dropWhile isWs).reverse.dropWhile isWs).reverse

/-- `split_into_sentences` (chunking.py lines 18-31): split, strip each
piece, drop empty pieces. -/
def split_into_sentences (text : List Char) : List (List Char) :=
  ((splitGo text [] false).map trim).filter (fun s => s ≠ [])

/-! ## Chunking (`chunk_text`, chunking.py lines 34-104) -/

def TARGET_CHUNK_CHARS : Int := 512 * 4

def STRIDE_CHARS : Int := 64 * 4

/-- A chunk dictionary (chunking.py lines 69-76); `sectionName` models the
`"section"` key. -/
structure Chunk where
  doc_id : String
  chunk_index : Nat
  text : List Char
  sectionName : String
  source : String
  title : String
  deriving DecidableEq, Repr

/-- Python `" ".join(current_chunk)`. -/
def joinSp : List (List Char) → List Char
  | [] => []
  | [s] => s
  | s :: rest => s ++ ' ' :: joinSp rest

/-- The overlap retention loop (chunking.py lines 81-83): pop sentences from
the front while the tracked length exceeds the stride. -/
def popLoop : List (List Char) → Int → List (List Char) × Int
  | [], n => ([], n)
  | s :: rest, n =>
    if n > STRIDE_CHARS then popLoop rest (n - (s.length + 1))
    else (s :: rest, n)

structure ChunkSt where
  chunks : List Chunk
  cur : List (List Char)
  curLen : Int
  idx : Nat

/-- One iteration of the sentence loop (chunking.py lines 63-89).  In the
accumulate branch the Python code appends the sentence *before* evaluating
`(1 if current_chunk else 0)`, so the conditional is always 1; the model adds
`+ 1` unconditionally to mirror that evaluation order. -/
def chunkStep (doc_id source title sectionName : String)
    (st : ChunkSt) (sentence : List Char) : ChunkSt :=
  let sentence_length : Int := sentence.length
  if st.curLen + sentence_length > TARGET_CHUNK_CHARS ∧ st.cur ≠ [] then
    let chunks' := st.chunks ++
      [⟨doc_id, st.idx, joinSp st.cur, sectionName, source, title⟩]
    let ret := (popLoop st.cur st.curLen).1
    let cur' := ret ++ [sentence]
    ⟨chunks', cur',
      (cur'.map (fun s => (s.length : Int))).sum + cur'.length - 1, st.idx + 1⟩
  else
    ⟨st.chunks, st.cur ++ [sentence], st.curLen + sentence_length + 1, st.idx⟩

/-- `chunk_text` (chunking.py lines 34-104). -/
def chunk_text (text : List Char) (doc_id source title : String)
    (sectionName : String := "content") : List Chunk :=
  if text = [] ∨ trim text = [] then []
  else
    let sentences := split_into_sentences text
    let st := sentences.foldl (chunkStep doc_id source title sectionName)
      ⟨[], [], 0, 0⟩
    if st.cur ≠ [] then
      st.chunks ++ [⟨doc_id, st.idx, joinSp st.cur, sectionName, source, title⟩]
    else st.chunks

/-! ### Joined-length lemmas -/

theorem joinSp_cons_ne (s : List Char) {rest : List (List Char)} (h : rest ≠ []) :
    joinSp (s :: rest) = s ++ ' ' :: joinSp rest := by
  cases rest with
  | nil => exact absurd rfl h
  | cons t ts => rfl

theorem joinSp_append {l r : List (List Char)} (hl : l ≠ []) (hr : r ≠ []) :
    joinSp (l ++ r) = joinSp l ++ ' ' :: joinSp r := by
  induction l with
  | nil => exact absurd rfl hl
  | cons s rest ih =>
    cases rest with
    | nil =>
      rw [List.singleton_append, joinSp_cons_ne s hr]
      rfl
    | cons t ts =>
      rw [List.cons_append, joinSp_cons_ne s (by simp), joinSp_cons_ne s (by simp),
        ih (by simp)]
      simp

theorem joinSp_length_cons (s : List Char) {rest : List (List Char)} (h : rest ≠ []) :
    (joinSp (s :: rest)).length = s.length + 1 + (joinSp rest).length := by
  rw [joinSp_cons_ne s h]
  simp
  omega

theorem joinSp_sum_formula {l : List (List Char)} (h : l ≠ []) :
    ((l.map (fun s => (s.length : Int))).sum + l.length - 1 : Int) =
      (joinSp l).length := by
  induction l with
  | nil => exact absurd rfl h
  | cons s rest ih =>
    cases rest with
    | nil => simp [joinSp]
    | cons t ts =>
      rw [joinSp_length_cons s (by simp)]
      have := ih (by simp)
      simp only [List.map_cons, List.sum_cons, List.length_cons] at this ⊢
      push_cast at this ⊢
      omega

theorem joinSp_ne_nil {l : List (List Char)} (hl : l ≠ [])
    (helem : ∀ x ∈ l, x ≠ []) : joinSp l ≠ [] := by
  cases l with
  | nil => exact absurd rfl hl
  | cons s rest =>
    cases rest with
    | nil =>
      simpa [joinSp] using helem s (by simp)
    | cons t ts =>
      rw [joinSp_cons_ne s (by simp)]
      simp

/-! ### The chunk-loop invariant -/

theorem popLoop_spec :
    ∀ (cur : List (List Char)) (n : Int), cur ≠ [] →
      (∀ x ∈ cur, (x.length : Int) ≤ 255) →
      ((joinSp cur).length : Int) ≤ n → n ≤ ((joinSp cur).length : Int) + 1 →
      (popLoop cur n).1 ≠ [] ∧
      (((joinSp (popLoop cur n).1).length : Int) ≤ STRIDE_CHARS) ∧
      ∃ dropped, cur = dropped ++ (popLoop cur n).1 := by
  intro cur
  induction cur with
  | nil => intro n h; exact absurd rfl h
  | cons s rest ih =>
    intro n _ helem hlo hhi
    by_cases hn : n > STRIDE_CHARS
    · cases rest with
      | nil =>
        exfalso
        have hs : (s.length : Int) ≤ 255 := helem s (by simp)
        have : ((joinSp [s]).length : Int) = (s.length : Int) := by simp [joinSp]
        rw [this] at hhi
        have : STRIDE_CHARS = 256 := by norm_num [STRIDE_CHARS]
        omega
      | cons t ts =>
        have hstep : popLoop (s :: t :: ts) n =
            popLoop (t :: ts) (n - (s.length + 1)) := by
          rw [popLoop, if_pos hn]
        have hjoin : ((joinSp (s :: t :: ts)).length : Int) =
            (s.length : Int) + 1 + ((joinSp (t :: ts)).length : Int) := by
          rw [joinSp_length_cons s (by simp)]
          push_cast
          ring
        have hres := ih (n - (s.length + 1)) (by simp)
          (fun x hx => helem x (List.mem_cons_of_mem s hx))
          (by omega) (by omega)
        rw [hstep]
        refine ⟨hres.1, hres.2.1, ?_⟩
        obtain ⟨dropped, hdrop⟩ := hres.2.2
        exact ⟨s :: dropped, by rw [List.cons_append, ← hdrop]⟩
    · have hstep : popLoop (s :: rest) n = (s :: rest, n) := by
        rw [popLoop, if_neg hn]
      rw [hstep]
      refine ⟨by simp, ?_, ⟨[], rfl⟩⟩
      show ((joinSp (s :: rest)).length : Int) ≤ STRIDE_CHARS
      omega

/-- Two consecutive chunks share text: a non-empty suffix of the first
chunk's text is a prefix of the second chunk's text. -/
def Overlap (c1 c2 : Chunk) : Prop :=
  ∃ t, t ≠ [] ∧ (∃ p, c1.text = p ++ t) ∧ (∃ u, c2.text = t ++ u)

/-- Loop invariant for the sentence fold of `chunk_text` (established for
texts whose sentences all have at most 255 characters). -/
def ChunkInv (st : ChunkSt) : Prop :=
  (st.cur = [] → st.chunks = [] ∧ st.curLen = 0) ∧
  (∀ x ∈ st.cur, x ≠ [] ∧ (x.length : Int) ≤ 255) ∧
  ((joinSp st.cur).length : Int) ≤ st.curLen ∧
  st.curLen ≤ ((joinSp st.cur).length : Int) + 1 ∧
  ((joinSp st.cur).length : Int) ≤ TARGET_CHUNK_CHARS + 1 ∧
  (∀ c ∈ st.chunks, (c.text.length : Int) ≤ TARGET_CHUNK_CHARS + 1) ∧
  List.Chain' Overlap st.chunks ∧
  (∀ lc ∈ st.chunks.getLast?, ∃ R rest0, R ≠ [] ∧ st.cur = R ++ rest0 ∧
      ∃ pre, lc.text = pre ++ joinSp R)

theorem chain'_append_chunk {chunks : List Chunk} {cur : List (List Char)}
    (h7 : List.Chain' Overlap chunks)
    (h2 : ∀ x ∈ cur, x ≠ [] ∧ (x.length : Int) ≤ 255)
    (h8 : ∀ lc ∈ chunks.getLast?, ∃ R rest0, R ≠ [] ∧ cur = R ++ rest0 ∧
        ∃ pre, lc.text = pre ++ joinSp R)
    (c0 : Chunk) (hc0 : c0.text = joinSp cur) :
    List.Chain' Overlap (chunks ++ [c0]) := by
  rw [List.chain'_append]
  refine ⟨h7, List.chain'_singleton c0, ?_⟩
  intro x hx y hy
  have hy0 : c0 = y := by simpa using hy
  subst hy0
  obtain ⟨R, rest0, hR, hcur, pre, hpre⟩ := h8 x hx
  refine ⟨joinSp R, ?_, ⟨pre, hpre⟩, ?_⟩
  · refine joinSp_ne_nil hR (fun z hz => ?_)
    have hzc : z ∈ cur := by
      rw [hcur]; exact List.mem_append.mpr (Or.inl hz)
    exact (h2 z hzc).1
  · cases rest0 with
    | nil =>
      refine ⟨[], ?_⟩
      rw [hc0, hcur, List.append_nil, List.append_nil]
    | cons r0 rs =>
      refine ⟨' ' :: joinSp (r0 :: rs), ?_⟩
      rw [hc0, hcur, joinSp_append hR (by simp)]

theorem chunkStep_inv (d src ttl sec : String) (st : ChunkSt) (s : List Char)
    (hst : ChunkInv st) (hs1 : s ≠ []) (hs2 : (s.length : Int) ≤ 255) :
    ChunkInv (chunkStep d src ttl sec st s) := by
  obtain ⟨h1, h2, h3, h4, h5, h6, h7, h8⟩ := hst
  have hS : STRIDE_CHARS = 256 := by norm_num [STRIDE_CHARS]
  have hT : TARGET_CHUNK_CHARS = 2048 := by norm_num [TARGET_CHUNK_CHARS]
  by_cases hcond : st.curLen + (s.length : Int) > TARGET_CHUNK_CHARS ∧ st.cur ≠ []
  · obtain ⟨hretne, hretlen, dropped, hdrop⟩ :=
      popLoop_spec st.cur st.curLen hcond.2 (fun x hx => (h2 x hx).2) h3 h4
    have hstep : chunkStep d src ttl sec st s =
        ⟨st.chunks ++ [⟨d, st.idx, joinSp st.cur, sec, src, ttl⟩],
         (popLoop st.cur st.curLen).1 ++ [s],
         ((((popLoop st.cur st.curLen).1 ++ [s]).map
            (fun t => (t.length : Int))).sum +
           (((popLoop st.cur st.curLen).1 ++ [s]).length : Int) - 1),
         st.idx + 1⟩ := by
      simp only [chunkStep]
      rw [if_pos hcond]
    rw [hstep]
    set ret := (popLoop st.cur st.curLen).1 with hret
    have hcurne : ret ++ [s] ≠ [] := by simp
    have hsum : (((ret ++ [s]).map (fun t => (t.length : Int))).sum +
        (((ret ++ [s]).length : Int)) - 1) = ((joinSp (ret ++ [s])).length : Int) :=
      joinSp_sum_formula hcurne
    have hjoin : ((joinSp (ret ++ [s])).length : Int) =
        ((joinSp ret).length : Int) + 1 + (s.length : Int) := by
      rw [joinSp_append hretne (by simp)]
      simp [joinSp]
      ring
    refine ⟨?_, ?_, ?_, ?_, ?_, ?_, ?_, ?_⟩
    · intro hc
      exact absurd hc hcurne
    · intro x hx
      rcases List.mem_append.mp hx with hxr | hxs
      · refine h2 x ?_
        rw [hdrop]
        exact List.mem_append.mpr (Or.inr hxr)
      · have : x = s := by simpa using hxs
        subst this
        exact ⟨hs1, hs2⟩
    · show ((joinSp (ret ++ [s])).length : Int) ≤ _
      rw [hsum]
    · show (((ret ++ [s]).map (fun t => (t.length : Int))).sum +
          (((ret ++ [s]).length : Int)) - 1) ≤ ((joinSp (ret ++ [s])).length : Int) + 1
      rw [hsum]
      omega
    · show ((joinSp (ret ++ [s])).length : Int) ≤ TARGET_CHUNK_CHARS + 1
      omega
    · intro c hc
      rcases List.mem_append.mp hc with hco | hcn
      · exact h6 c hco
      · have : c = ⟨d, st.idx, joinSp st.cur, sec, src, ttl⟩ := by simpa using hcn
        subst this
        exact h5
    · exact chain'_append_chunk h7 h2 h8 _ rfl
    · intro lc hlc
      have hlast : (st.chunks ++
          [(⟨d, st.idx, joinSp st.cur, sec, src, ttl⟩ : Chunk)]).getLast? =
          some ⟨d, st.idx, joinSp st.cur, sec, src, ttl⟩ := by
        rw [List.getLast?_concat]
      rw [hlast] at hlc
      have hlc' : (⟨d, st.idx, joinSp st.cur, sec, src, ttl⟩ : Chunk) = lc := by
        simpa using hlc
      subst hlc'
      refine ⟨ret, [s], hretne, rfl, ?_⟩
      show ∃ pre, joinSp st.cur = pre ++ joinSp ret
      cases dropped with
      | nil =>
        refine ⟨[], ?_⟩
        rw [hdrop]
        rfl
      | cons d0 ds =>
        refine ⟨joinSp (d0 :: ds) ++ [' '], ?_⟩
        rw [hdrop, joinSp_append (by simp) hretne]
        simp
  · have hstep : chunkStep d src ttl sec st s =
        ⟨st.chunks, st.cur ++ [s], st.curLen + (s.length : Int) + 1, st.idx⟩ := by
      simp only [chunkStep]
      rw [if_neg hcond]
    rw [hstep]
    have hmem2 : ∀ x ∈ st.cur ++ [s], x ≠ [] ∧ (x.length : Int) ≤ 255 := by
      intro x hx
      rcases List.mem_append.mp hx with hxc | hxs
      · exact h2 x hxc
      · have : x = s := by simpa using hxs
        subst this
        exact ⟨hs1, hs2⟩
    by_cases hcur : st.cur = []
    · obtain ⟨hch, hlen0⟩ := h1 hcur
      have hjoin : joinSp (st.cur ++ [s]) = s := by
        rw [hcur]
        rfl
      refine ⟨?_, hmem2, ?_, ?_, ?_, ?_, ?_, ?_⟩
      · intro hc
        simp at hc
      · show ((joinSp (st.cur ++ [s])).length : Int) ≤ st.curLen + s.length + 1
        rw [hjoin, hlen0]
        omega
      · show st.curLen + (s.length : Int) + 1 ≤
          ((joinSp (st.cur ++ [s])).length : Int) + 1
        rw [hjoin, hlen0]
        omega
      · show ((joinSp (st.cur ++ [s])).length : Int) ≤ TARGET_CHUNK_CHARS + 1
        rw [hjoin]
        omega
      · exact h6
      · exact h7
      · intro lc hlc
        rw [hch] at hlc
        simp at hlc
    · have hle : st.curLen + (s.length : Int) ≤ TARGET_CHUNK_CHARS := by
        by_contra hgt
        exact hcond ⟨lt_of_not_ge hgt, hcur⟩
      have hjoin : ((joinSp (st.cur ++ [s])).length : Int) =
          ((joinSp st.cur).length : Int) + 1 + (s.length : Int) := by
        rw [joinSp_append hcur (by simp)]
        simp [joinSp]
        ring
      refine ⟨?_, hmem2, ?_, ?_, ?_, ?_, ?_, ?_⟩
      · intro hc
        simp at hc
      · show ((joinSp (st.cur ++ [s])).length : Int) ≤ st.curLen + s.length + 1
        omega
      · show st.curLen + (s.length : Int) + 1 ≤
          ((joinSp (st.cur ++ [s])).length : Int) + 1
        omega
      · show ((joinSp (st.cur ++ [s])).length : Int) ≤ TARGET_CHUNK_CHARS + 1
        omega
      · exact h6
      · exact h7
      · intro lc hlc
        obtain ⟨R, rest0, hR, hcureq, pre, hpre⟩ := h8 lc hlc
        refine ⟨R, rest0 ++ [s], hR, ?_, pre, hpre⟩
        rw [hcureq, List.append_assoc]

theorem foldl_chunkStep_inv (d src ttl sec : String) (S : List (List Char)) :
    ∀ st : ChunkSt, ChunkInv st →
      (∀ s ∈ S, s ≠ [] ∧ (s.length : Int) ≤ 255) →
      ChunkInv (S.foldl (chunkStep d src ttl sec) st) := by
  induction S with
  | nil => intro st h _; simpa using h
  | cons s rest ih =>
    intro st hst hS
    rw [List.foldl_cons]
    exact ih _ (chunkStep_inv d src ttl sec st s hst (hS s (by simp)).1
        (hS s (by simp)).2)
      (fun t ht => hS t (List.mem_cons_of_mem s ht))

theorem split_into_sentences_ne_nil (text : List Char) :
    ∀ s ∈ split_into_sentences text, s ≠ [] := by
  intro s hs
  have := List.of_mem_filter hs
  simpa using this

/-- C5 (amended): for any input text all of whose (stripped) sentences have
at most 255 characters (one less than the 256-character stride), every chunk
produced by `chunk_text` — final chunk included — has text length at most
2049 (one more than the 2048-character target: the running length counter
over-counts the joining space), consecutive chunks overlap (a non-empty
suffix of each chunk's text is a prefix of the next chunk's text), and an
empty or whitespace-only input yields zero chunks.  The original bound of
2048 and the unconditional claim fail: see the counterexample. -/
theorem chunk_text_bounded_overlapping (text : List Char) (d src ttl sec : String)
    (hsent : ∀ s ∈ split_into_sentences text, s.length ≤ 255) :
    (∀ c ∈ chunk_text text d src ttl sec, c.text.length ≤ 2049) ∧
    List.Chain' Overlap (chunk_text text d src ttl sec) ∧
    (trim text = [] → chunk_text text d src ttl sec = []) := by
  by_cases hguard : text = [] ∨ trim text = []
  · have hnil : chunk_text text d src ttl sec = [] := by
      rw [chunk_text, if_pos hguard]
    rw [hnil]
    exact ⟨by simp, List.chain'_nil, fun _ => rfl⟩
  · set st := (split_into_sentences text).foldl (chunkStep d src ttl sec)
      ⟨[], [], 0, 0⟩ with hstdef
    have hct : chunk_text text d src ttl sec =
        (if st.cur ≠ [] then
          st.chunks ++ [⟨d, st.idx, joinSp st.cur, sec, src, ttl⟩]
        else st.chunks) := by
      simp only [chunk_text]
      rw [if_neg hguard]
    have hInv : ChunkInv st := by
      rw [hstdef]
      refine foldl_chunkStep_inv d src ttl sec (split_into_sentences text)
        ⟨[], [], 0, 0⟩ ?_ ?_
      · refine ⟨fun _ => ⟨rfl, rfl⟩, by simp, ?_, ?_, ?_, by simp,
          List.chain'_nil, by simp⟩
        · show ((joinSp []).length : Int) ≤ 0
          simp [joinSp]
        · show (0 : Int) ≤ ((joinSp []).length : Int) + 1
          simp [joinSp]
        · show ((joinSp []).length : Int) ≤ TARGET_CHUNK_CHARS + 1
          norm_num [joinSp, TARGET_CHUNK_CHARS]
      · intro s hs
        exact ⟨split_into_sentences_ne_nil text s hs,
          by exact_mod_cast hsent s hs⟩
    obtain ⟨i1, i2, i3, i4, i5, i6, i7, i8⟩ := hInv
    have hT : TARGET_CHUNK_CHARS = 2048 := by norm_num [TARGET_CHUNK_CHARS]
    by_cases hcur : st.cur = []
    · have hchunks : st.chunks = [] := (i1 hcur).1
      have hres : chunk_text text d src ttl sec = [] := by
        rw [hct, if_neg (by simpa using hcur), hchunks]
      rw [hres]
      exact ⟨by simp, List.chain'_nil, fun _ => rfl⟩
    · have hres : chunk_text text d src ttl sec =
          st.chunks ++ [⟨d, st.idx, joinSp st.cur, sec, src, ttl⟩] := by
        rw [hct, if_pos hcur]
      rw [hres]
      refine ⟨?_, chain'_append_chunk i7 i2 i8 _ rfl,
        fun h => absurd (Or.inr h) hguard⟩
      intro c hc
      rcases List.mem_append.mp hc with hco | hcn
      · have := i6 c hco
        rw [hT] at this
        exact_mod_cast this
      · have hc0 : c = ⟨d, st.idx, joinSp st.cur, sec, src, ttl⟩ := by
          simpa using hcn
        subst hc0
        have : ((joinSp st.cur).length : Int) ≤ 2049 := by
          rw [hT] at i5
          exact_mod_cast i5
        exact_mod_cast this

/-! ### C5 counterexample: a sentence longer than the target size -/

theorem trim_eq_self {l : List Char} (hhead : ∀ c ∈ l.head?, isWs c = false)
    (hlast : ∀ c ∈ l.getLast?, isWs c = false) : trim l = l := by
  cases l with
  | nil => rfl
  | cons a m =>
    have ha : isWs a = false := hhead a rfl
    rw [trim, List.dropWhile_cons, if_neg (by simp [ha])]
    cases hrev : (a :: m).reverse with
    | nil => simp at hrev
    | cons b bs =>
      have hb : isWs b = false := by
        have hhd : (a :: m).reverse.head? = some b := by rw [hrev]; rfl
        rw [List.head?_reverse] at hhd
        exact hlast b hhd
      rw [List.dropWhile_cons, if_neg (by simp [hb]), ← hrev,
        List.reverse_reverse]

theorem trim_eq_nil_ws {l : List Char} (h : trim l = []) :
    ∀ c ∈ l, isWs c = true := by
  intro c hc
  rw [trim] at h
  have h2 : (l.dropWhile isWs).reverse.dropWhile isWs = [] := by
    simpa using h
  have hall : ∀ x ∈ l.dropWhile isWs, isWs x = true :=
    fun x hx => List.dropWhile_eq_nil_iff.mp h2 x (List.mem_reverse.mpr hx)
  have hsplit : c ∈ l.takeWhile isWs ++ l.dropWhile isWs := by
    rw [List.takeWhile_append_dropWhile]
    exact hc
  rcases List.mem_append.mp hsplit with h1 | h1
  · exact List.mem_takeWhile_imp h1
  · exact hall c h1

theorem replicate_append_cons {α : Type} (n : Nat) (x : α) (l : List α) :
    List.replicate n x ++ x :: l = x :: (List.replicate n x ++ l) := by
  induction n with
  | zero => rfl
  | succ k ih => rw [List.replicate_succ, List.cons_append, ih, List.cons_append]

theorem splitGo_replicate (n : Nat) (l acc : List Char) :
    splitGo (List.replicate n 'a' ++ l) acc false =
      splitGo l (List.replicate n 'a' ++ acc) false := by
  induction n generalizing acc with
  | zero => simp
  | succ k ih =>
    rw [List.replicate_succ, List.cons_append, splitGo]
    simp only [Bool.false_and, Bool.false_eq_true, if_false]
    rw [if_neg (by simp [isSentEnd])]
    rw [ih ('a' :: acc), replicate_append_cons, List.cons_append]

def cexSent2 : List Char := ['B', 'y', 'e', '.']

def cexSent1 : List Char := List.replicate 2048 'a' ++ ['.']

/-- A text whose first sentence has 2049 characters, one more than the
2048-character target chunk size. -/
def cexText : List Char := List.replicate 2048 'a' ++ '.' :: ' ' :: cexSent2

theorem cexSent1_length : cexSent1.length = 2049 := by
  rw [cexSent1, List.length_append, List.length_replicate]
  rfl

theorem cexSent1_ne_nil : cexSent1 ≠ [] := by
  intro h
  have hl := congrArg List.length h
  rw [cexSent1_length] at hl
  exact absurd hl (by norm_num)

theorem cex_splitGo : splitGo cexText [] false = [cexSent1, cexSent2] := by
  rw [cexText, splitGo_replicate, List.append_nil, splitGo]
  simp only [Bool.false_and, Bool.false_eq_true, if_false]
  rw [if_pos (by simp [isSentEnd, headIsWs, isWs])]
  have htail : splitGo (' ' :: cexSent2) [] true = [cexSent2] := by decide
  rw [htail]
  rw [List.reverse_cons, List.reverse_replicate]
  rfl

theorem cex_trim1 : trim cexSent1 = cexSent1 := by
  have hcons : cexSent1 = 'a' :: (List.replicate 2047 'a' ++ ['.']) := by
    rw [cexSent1, show (2048 : Nat) = 2047 + 1 from rfl, List.replicate_succ,
      List.cons_append]
  refine trim_eq_self ?_ ?_
  · intro c hc
    rw [hcons] at hc
    rw [List.head?_cons, Option.mem_def, Option.some.injEq] at hc
    rw [← hc]
    rfl
  · intro c hc
    rw [cexSent1, List.getLast?_concat, Option.mem_def, Option.some.injEq] at hc
    rw [← hc]
    rfl

theorem cex_sentences : split_into_sentences cexText = [cexSent1, cexSent2] := by
  rw [split_into_sentences, cex_splitGo, List.map_cons, List.map_cons,
    List.map_nil, cex_trim1]
  have h2 : trim cexSent2 = cexSent2 := by decide
  rw [h2]
  have hne2 : cexSent2 ≠ [] := by decide
  rw [List.filter_cons, List.filter_cons, List.filter_nil]
  rw [if_pos (by simpa using cexSent1_ne_nil), if_pos (by simpa using hne2)]

theorem cex_guard : ¬ (cexText = [] ∨ trim cexText = []) := by
  rintro (h | h)
  · have hl := congrArg List.length h
    rw [cexText, List.length_append, List.length_replicate] at hl
    exact absurd hl (by norm_num)
  · have hmem : 'a' ∈ cexText := by
      rw [cexText]
      refine List.mem_append.mpr (Or.inl ?_)
      exact List.mem_replicate.mpr ⟨by norm_num, rfl⟩
    have := trim_eq_nil_ws h 'a' hmem
    exact absurd this (by simp [isWs])

theorem cex_chunk :
    chunk_text cexText "d" "papers" "t" "content" =
      [⟨"d", 0, cexSent1, "content", "papers", "t"⟩,
       ⟨"d", 1, cexSent2, "content", "papers", "t"⟩] := by
  have hlen1 : ((cexSent1.length : Int)) = 2049 := by
    rw [cexSent1_length]
    rfl
  simp only [chunk_text]
  rw [if_neg cex_guard, cex_sentences, List.foldl_cons, List.foldl_cons,
    List.foldl_nil]
  have hstep1 : chunkStep "d" "papers" "t" "content" ⟨[], [], 0, 0⟩ cexSent1 =
      ⟨[], [cexSent1], 2050, 0⟩ := by
    simp only [chunkStep]
    rw [if_neg (fun h => h.2 rfl)]
    show ChunkSt.mk [] ([] ++ [cexSent1]) (0 + (cexSent1.length : Int) + 1) 0 = _
    rw [List.nil_append, hlen1]
    norm_num
  rw [hstep1]
  have hpop : popLoop [cexSent1] 2050 = ([], 0) := by
    rw [popLoop, if_pos (by norm_num [STRIDE_CHARS])]
    rw [show (2050 : Int) - ((cexSent1.length : Int) + 1) = 0 by omega]
    rfl
  have hcond2 : (2050 : Int) + (cexSent2.length : Int) > TARGET_CHUNK_CHARS ∧
      ([cexSent1] : List (List Char)) ≠ [] := by
    constructor
    · norm_num [cexSent2, TARGET_CHUNK_CHARS]
    · simp
  have hstep2 : chunkStep "d" "papers" "t" "content" ⟨[], [cexSent1], 2050, 0⟩
      cexSent2 = ⟨[⟨"d", 0, cexSent1, "content", "papers", "t"⟩],
        [cexSent2], 4, 1⟩ := by
    simp only [chunkStep]
    rw [if_pos hcond2, hpop]
    show ChunkSt.mk
      ([] ++ [⟨"d", 0, joinSp [cexSent1], "content", "papers", "t"⟩])
      (([] : List (List Char)) ++ [cexSent2])
      ((((([] : List (List Char)) ++ [cexSent2]).map
          (fun (t : List Char) => (t.length : Int))).sum) +
        (((([] : List (List Char)) ++ [cexSent2]).length : Int)) - 1)
      (0 + 1) = _
    rw [List.nil_append, List.nil_append]
    norm_num [cexSent2, joinSp]
  rw [hstep2]
  rw [if_pos (by simp)]
  rfl

/-- C5 (counterexample): on a text whose first sentence has 2049 characters
followed by a short second sentence, the first emitted chunk is not the
final one and its text has 2049 characters, exceeding the 2048-character
target, so the bound claimed for non-final chunks fails as stated. -/
theorem chunk_text_nonfinal_exceeds_target :
    ¬ (∀ c ∈ (chunk_text cexText "d" "papers" "t" "content").dropLast,
        c.text.length ≤ 2048) := by
  intro h
  have hmem : (⟨"d", 0, cexSent1, "content", "papers", "t"⟩ : Chunk) ∈
      (chunk_text cexText "d" "papers" "t" "content").dropLast := by
    rw [cex_chunk]
    simp
  have hle := h _ hmem
  have hle' : cexSent1.length ≤ 2048 := hle
  rw [cexSent1_length] at hle'
  omega

/-- Witness for the amended C5 at a small concrete text. -/
theorem chunk_text_bounded_overlapping_witness :
    (∀ s ∈ split_into_sentences "Hello there. Bye now.".data, s.length ≤ 255) ∧
    (∀ c ∈ chunk_text "Hello there. Bye now.".data "d" "papers" "t" "content",
       c.text.length ≤ 2049) ∧
    List.Chain' Overlap
      (chunk_text "Hello there. Bye now.".data "d" "papers" "t" "content") ∧
    (trim "Hello there. Bye now.".data = [] →
       chunk_text "Hello there. Bye now.".data "d" "papers" "t" "content" = []) :=
  ⟨by decide, chunk_text_bounded_overlapping "Hello there. Bye now.".data
    "d" "papers" "t" "content" (by decide)⟩

/-! ## Embedding inputs (`services/embeddings.py`) and highlights
(`services/highlight.py`) -/

/-- `extract_sentences` (highlight.py lines 15-27): split, strip, keep only
pieces longer than 10 characters. -/
def extract_sentences (text : List Char) : List (List Char) :=
  ((splitGo text [] false).map trim).filter (fun s => s.length > 10)

/-- The text actually encoded by `embed_query` (embeddings.py line 37):
`f"query: {query}"`. -/
def embed_query_text (query : List Char) : List Char :=
  "query: ".data ++ query

/-- The texts actually encoded by `embed_passages` (embeddings.py line 53):
`f"passage: {p}"` for each passage. -/
def embed_passages_texts (passages : List (List Char)) : List (List Char) :=
  passages.map (fun p => "passage: ".data ++ p)

/-- All texts sent to the embedding model during one `generate_highlights`
call (highlight.py lines 56-66): the prefixed query via `embed_query`,
followed by the raw sentences, which are passed to `model.encode` without
any prefix. -/
def highlight_encoded_texts (query document_text : List Char) :
    List (List Char) :=
  embed_query_text query :: extract_sentences document_text

/-! ### Sentences are substrings of the document -/

theorem splitGo_substring :
    ∀ (l acc : List Char) (skipping : Bool), (skipping = true → acc = []) →
      ∀ p ∈ splitGo l acc skipping, ∃ pre suf, acc.reverse ++ l = pre ++ p ++ suf := by
  intro l
  induction l with
  | nil =>
    intro acc skipping _ p hp
    have hp0 : p = acc.reverse := by simpa [splitGo] using hp
    subst hp0
    exact ⟨[], [], by simp⟩
  | cons c rest ih =>
    intro acc skipping hsk p hp
    rw [splitGo] at hp
    by_cases h1 : (skipping && isWs c) = true
    · rw [if_pos h1] at hp
      have hacc : acc = [] := hsk (by
        rcases Bool.and_eq_true_iff.mp h1 with ⟨hs, _⟩
        exact hs)
      subst hacc
      obtain ⟨pre, suf, hps⟩ := ih [] true (fun _ => rfl) p hp
      simp only [List.reverse_nil, List.nil_append] at hps
      exact ⟨c :: pre, suf, by rw [List.reverse_nil, List.nil_append, hps]; rfl⟩
    · rw [if_neg h1] at hp
      by_cases h2 : (isSentEnd c && headIsWs rest) = true
      · rw [if_pos h2] at hp
        rcases List.mem_cons.mp hp with hemit | hrest
        · subst hemit
          refine ⟨[], rest, ?_⟩
          rw [List.reverse_cons]
          simp
        · obtain ⟨pre, suf, hps⟩ := ih [] true (fun _ => rfl) p hrest
          simp only [List.reverse_nil, List.nil_append] at hps
          refine ⟨acc.reverse ++ c :: pre, suf, ?_⟩
          rw [hps]
          simp
      · rw [if_neg h2] at hp
        obtain ⟨pre, suf, hps⟩ := ih (c :: acc) false (by simp) p hp
        rw [List.reverse_cons] at hps
        refine ⟨pre, suf, ?_⟩
        rw [← hps]
        simp

theorem trim_substring (l : List Char) : ∃ pre suf, l = pre ++ trim l ++ suf := by
  have h1 : l = l.takeWhile isWs ++ l.dropWhile isWs :=
    (List.takeWhile_append_dropWhile isWs l).symm
  have h2 : (l.dropWhile isWs).reverse =
      (l.dropWhile isWs).reverse.takeWhile isWs ++
        (l.dropWhile isWs).reverse.dropWhile isWs :=
    (List.takeWhile_append_dropWhile isWs (l.dropWhile isWs).reverse).symm
  have h3 : l.dropWhile isWs =
      ((l.dropWhile isWs).reverse.dropWhile isWs).reverse ++
        ((l.dropWhile isWs).reverse.takeWhile isWs).reverse := by
    have hcongr := congrArg List.reverse h2
    rw [List.reverse_reverse, List.reverse_append] at hcongr
    exact hcongr
  refine ⟨l.takeWhile isWs, ((l.dropWhile isWs).reverse.takeWhile isWs).reverse, ?_⟩
  rw [trim, List.append_assoc, ← h3, ← h1]

theorem extract_sentences_substring (text : List Char) :
    ∀ t ∈ extract_sentences text, ∃ pre suf, text = pre ++ t ++ suf := by
  intro t ht
  rw [extract_sentences] at ht
  have ht2 := List.mem_of_mem_filter ht
  obtain ⟨p, hpmem, hpt⟩ := List.mem_map.mp ht2
  obtain ⟨pre, suf, hps⟩ := splitGo_substring text [] false (fun _ => rfl) p hpmem
  simp only [List.reverse_nil, List.nil_append] at hps
  obtain ⟨a, b, hab⟩ := trim_substring p
  rw [hpt] at hab
  refine ⟨pre ++ a, b ++ suf, ?_⟩
  rw [hps, hab]
  simp

/-- C6 (counterexample): the Highlighter embeds the document's sentences
raw: on a concrete query and document, one of the texts sent to the
embedding model inside `generate_highlights` carries neither the
`"query: "` nor the `"passage: "` prefix. -/
theorem highlight_embeds_unprefixed_text :
    ∃ t ∈ highlight_encoded_texts "battery recycling".data
        "Recycling batteries is quite useful.".data,
      "query: ".data.isPrefixOf t = false ∧
      "passage: ".data.isPrefixOf t = false := by decide

/-- C6 (amended): `embed_query` always encodes text carrying the
`"query: "` prefix and `embed_passages` always the `"passage: "` prefix,
but the Highlighter's sentence embeddings are unprefixed: every text it
sends to the model is either the prefixed query or a raw substring of the
document. -/
theorem embedding_texts_prefixes :
    (∀ q : List Char, ∃ r, embed_query_text q = "query: ".data ++ r) ∧
    (∀ ps : List (List Char), ∀ t ∈ embed_passages_texts ps,
       ∃ r, t = "passage: ".data ++ r) ∧
    (∀ q text : List Char, ∀ t ∈ highlight_encoded_texts q text,
       t = embed_query_text q ∨ ∃ pre suf, text = pre ++ t ++ suf) := by
  refine ⟨fun q => ⟨q, rfl⟩, ?_, ?_⟩
  · intro ps t ht
    obtain ⟨p, _, hp⟩ := List.mem_map.mp ht
    exact ⟨p, hp.symm⟩
  · intro q text t ht
    rcases List.mem_cons.mp ht with h | h
    · exact Or.inl h
    · exact Or.inr (extract_sentences_substring text t h)

/-- `cosine_similarity` (embeddings.py lines 63-90): on already normalized
vectors the dot product. -/
def cosine_similarity (q p : List ℚ) : ℚ :=
  (List.zipWith (fun a b => a * b) q p).sum

/-- `generate_highlights` (highlight.py lines 30-82), parametrized by the
embedding model `enc` (a pure map from encoded text to vector) and `encOk`
(false when an embedding call inside the `try` raises, taking the fallback
at lines 78-82).  The query is encoded via `embed_query` with its
`"query: "` prefix, the sentences raw (line 61).  NumPy's `argsort` leaves
the order of tied scores unspecified; the model fixes one concrete order,
and no property proved below depends on tie-breaking. -/
def generate_highlights (enc : List Char → List ℚ) (encOk : Bool)
    (query document_text : List Char) (max_highlights : Nat := 3) :
    List (List Char) :=
  let sentences := extract_sentences document_text
  if sentences = [] then []
  else if encOk then
    let query_embedding := enc (embed_query_text query)
    let sims := sentences.map (fun s => cosine_similarity query_embedding (enc s))
    let top_indices := (List.insertionSort
      (fun i j => sims.getD j 0 ≤ sims.getD i 0)
      (List.range sentences.length)).take max_highlights
    top_indices.map (fun i => sentences.getD i [])
  else
    sentences.take max_highlights

theorem topk_select {α : Type} (r : α → α → Prop) (sorted all : List α)
    (k : Nat) (hperm : sorted.Perm all) (hsorted : List.Pairwise r sorted)
    {i j : α} (hi : i ∈ sorted.take k) (hj : j ∈ all)
    (hjnot : j ∉ sorted.take k) : r i j := by
  have hjs : j ∈ sorted := hperm.symm.subset hj
  have hjdrop : j ∈ sorted.drop k := by
    have hsplit : j ∈ sorted.take k ++ sorted.drop k := by
      rw [List.take_append_drop]
      exact hjs
    rcases List.mem_append.mp hsplit with h1 | h1
    · exact absurd h1 hjnot
    · exact h1
  have hpw : List.Pairwise r (sorted.take k ++ sorted.drop k) := by
    rw [List.take_append_drop]
    exact hsorted
  exact (List.pairwise_append.mp hpw).2.2 i hi j hjdrop

/-- C9: with the embedding calls succeeding, `generate_highlights` returns
at most 3 sentences, each a substring of the document text, in
non-increasing order of cosine similarity to the (prefixed) query embedding;
every returned sentence scores at least as high as every non-returned
sentence, and a document yielding exactly one sentence returns exactly that
sentence.  Even on the embedding-failure fallback path the result still has
at most 3 sentences, each a substring of the document. -/
theorem generate_highlights_spec (enc : List Char → List ℚ)
    (query text : List Char) :
    (generate_highlights enc true query text 3).length ≤ 3 ∧
    (∀ h ∈ generate_highlights enc true query text 3,
       ∃ pre suf, text = pre ++ h ++ suf) ∧
    List.Pairwise (fun a b =>
      cosine_similarity (enc (embed_query_text query)) (enc b) ≤
      cosine_similarity (enc (embed_query_text query)) (enc a))
      (generate_highlights enc true query text 3) ∧
    (∀ h ∈ generate_highlights enc true query text 3,
       ∀ s ∈ extract_sentences text,
         s ∉ generate_highlights enc true query text 3 →
         cosine_similarity (enc (embed_query_text query)) (enc s) ≤
         cosine_similarity (enc (embed_query_text query)) (enc h)) ∧
    (∀ s, extract_sentences text = [s] →
       generate_highlights enc true query text 3 = [s]) ∧
    (generate_highlights enc false query text 3).length ≤ 3 ∧
    (∀ h ∈ generate_highlights enc false query text 3,
       ∃ pre suf, text = pre ++ h ++ suf) := by
  have hfall : generate_highlights enc false query text 3 =
      (if extract_sentences text = [] then []
       else (extract_sentences text).take 3) := by
    simp only [generate_highlights]
    split
    · rfl
    · rfl
  have hflen : (generate_highlights enc false query text 3).length ≤ 3 := by
    rw [hfall]
    split
    · simp
    · rw [List.length_take]
      exact min_le_left _ _
  have hfmem : ∀ h ∈ generate_highlights enc false query text 3,
      ∃ pre suf, text = pre ++ h ++ suf := by
    intro h hh
    rw [hfall] at hh
    split at hh
    · cases hh
    · exact extract_sentences_substring text h (List.mem_of_mem_take hh)
  by_cases hne : extract_sentences text = []
  · have hg : generate_highlights enc true query text 3 = [] := by
      simp only [generate_highlights]
      rw [if_pos hne]
    refine ⟨by rw [hg]; simp, by rw [hg]; simp, by rw [hg]; exact List.Pairwise.nil,
      by rw [hg]; simp, ?_, hflen, hfmem⟩
    intro s hs
    rw [hs] at hne
    cases hne
  · haveI htot : IsTotal ℕ (fun i j : ℕ =>
        ((extract_sentences text).map (fun s =>
          cosine_similarity (enc (embed_query_text query)) (enc s))).getD j 0 ≤
        ((extract_sentences text).map (fun s =>
          cosine_similarity (enc (embed_query_text query)) (enc s))).getD i 0) :=
      ⟨fun a b => le_total _ _⟩
    haveI htrans : IsTrans ℕ (fun i j : ℕ =>
        ((extract_sentences text).map (fun s =>
          cosine_similarity (enc (embed_query_text query)) (enc s))).getD j 0 ≤
        ((extract_sentences text).map (fun s =>
          cosine_similarity (enc (embed_query_text query)) (enc s))).getD i 0) :=
      ⟨fun a b c hab hbc => le_trans hbc hab⟩
    have hg : generate_highlights enc true query text 3 =
        ((List.insertionSort (fun i j : ℕ =>
          ((extract_sentences text).map (fun s =>
            cosine_similarity (enc (embed_query_text query)) (enc s))).getD j 0 ≤
          ((extract_sentences text).map (fun s =>
            cosine_similarity (enc (embed_query_text query)) (enc s))).getD i 0)
          (List.range (extract_sentences text).length)).take 3).map
          (fun i => (extract_sentences text).getD i []) := by
      simp only [generate_highlights]
      rw [if_neg hne, if_pos trivial]
    have hsorted := List.sorted_insertionSort (fun i j : ℕ =>
        ((extract_sentences text).map (fun s =>
          cosine_similarity (enc (embed_query_text query)) (enc s))).getD j 0 ≤
        ((extract_sentences text).map (fun s =>
          cosine_similarity (enc (embed_query_text query)) (enc s))).getD i 0)
      (List.range (extract_sentences text).length)
    have hperm := List.perm_insertionSort (fun i j : ℕ =>
        ((extract_sentences text).map (fun s =>
          cosine_similarity (enc (embed_query_text query)) (enc s))).getD j 0 ≤
        ((extract_sentences text).map (fun s =>
          cosine_similarity (enc (embed_query_text query)) (enc s))).getD i 0)
      (List.range (extract_sentences text).length)
    have hmemidx : ∀ i ∈ List.insertionSort (fun i j : ℕ =>
        ((extract_sentences text).map (fun s =>
          cosine_similarity (enc (embed_query_text query)) (enc s))).getD j 0 ≤
        ((extract_sentences text).map (fun s =>
          cosine_similarity (enc (embed_query_text query)) (enc s))).getD i 0)
        (List.range (extract_sentences text).length),
        i < (extract_sentences text).length :=
      fun i hi => List.mem_range.mp (hperm.subset hi)
    have hsim : ∀ i (hi : i < (extract_sentences text).length),
        ((extract_sentences text).map (fun s =>
          cosine_similarity (enc (embed_query_text query)) (enc s))).getD i 0 =
        cosine_similarity (enc (embed_query_text query))
          (enc ((extract_sentences text).getD i [])) := by
      intro i hi
      rw [List.getD_eq_getElem _ _ (by simpa using hi),
        List.getD_eq_getElem _ _ hi, List.getElem_map]
    refine ⟨?_, ?_, ?_, ?_, ?_, hflen, hfmem⟩
    · rw [hg, List.length_map, List.length_take]
      exact min_le_left _ _
    · intro h hh
      rw [hg] at hh
      obtain ⟨i, hitake, hgi⟩ := List.mem_map.mp hh
      have hilt : i < (extract_sentences text).length :=
        hmemidx i (List.mem_of_mem_take hitake)
      have : h ∈ extract_sentences text := by
        rw [← hgi, List.getD_eq_getElem _ _ hilt]
        exact List.getElem_mem hilt
      exact extract_sentences_substring text h this
    · rw [hg, List.pairwise_map]
      refine List.Pairwise.imp_of_mem ?_
        (List.Pairwise.sublist (List.take_sublist 3 _) hsorted)
      intro a b ha hb hr
      have halt : a < (extract_sentences text).length :=
        hmemidx a (List.mem_of_mem_take ha)
      have hblt : b < (extract_sentences text).length :=
        hmemidx b (List.mem_of_mem_take hb)
      rw [hsim a halt, hsim b hblt] at hr
      exact hr
    · intro h hh s hs hsnot
      rw [hg] at hh
      obtain ⟨i, hitake, hgi⟩ := List.mem_map.mp hh
      have hilt : i < (extract_sentences text).length :=
        hmemidx i (List.mem_of_mem_take hitake)
      obtain ⟨j, hjlt, hsj⟩ := List.mem_iff_getElem.mp hs
      have hr := topk_select _ _ _ 3 hperm hsorted hitake
        (List.mem_range.mpr hjlt)
        (fun hjin => hsnot (by
          rw [hg]
          exact List.mem_map.mpr ⟨j, hjin, by
            rw [List.getD_eq_getElem _ _ hjlt]
            exact hsj⟩))
      rw [hsim i hilt, hsim j hjlt] at hr
      rw [hgi] at hr
      have hs' : (extract_sentences text).getD j [] = s := by
        rw [List.getD_eq_getElem _ _ hjlt]
        exact hsj
      rw [hs'] at hr
      exact hr
    · intro s hs
      rw [hg, hs]
      have h1 : List.range ([s] : List (List Char)).length = [0] := rfl
      rw [h1]
      simp [List.insertionSort, List.orderedInsert]

/-! ## Reranker (`services/reranker.py`) -/

/-- A document dictionary as consumed by `rerank_documents`: the fields the
function reads (`title`, `snippet`, and `score` via `doc.get("score", 0.0)`). -/
structure RDoc where
  title : String
  snippet : String
  score : Option ℚ := none
  deriving DecidableEq, Repr

/-- `rerank_documents` (reranker.py lines 17-76), with the Cohere HTTP call
as an `Except` parameter returning `(index, relevance_score)` pairs.  The
whole `try` block — the call, the JSON parse, and the loop indexing
`documents[index]` — is covered by the bare `except`, so a malformed
response (an out-of-range index) also takes the fallback path. -/
def rerank_documents
    (api : String → List String → Nat → Except String (List (Nat × ℚ)))
    (query : String) (documents : List RDoc) (top_n : Nat) :
    List (RDoc × ℚ) :=
  if documents = [] then []
  else
    let texts := documents.map (fun doc => (doc.title ++ " " ++ doc.snippet).trim)
    match api query texts (min top_n texts.length) with
    | .ok results =>
      if results.all (fun p => p.1 < documents.length) then
        results.map (fun p => (documents.getD p.1 ⟨"", "", none⟩, p.2))
      else
        (documents.take top_n).map (fun doc => (doc, doc.score.getD 0))
    | .error _ =>
      (documents.take top_n).map (fun doc => (doc, doc.score.getD 0))

/-- C7: if the rerank call fails, `rerank_documents` returns exactly the
first `top_n` input documents (all of them when fewer) in their original
input order, each paired with its pre-existing score, so a rerank failure
never removes one of those documents from the response. -/
theorem rerank_documents_fallback
    (query : String) (documents : List RDoc) (top_n : Nat) (e : String) :
    rerank_documents (fun _ _ _ => Except.error e) query documents top_n =
      (documents.take top_n).map (fun doc => (doc, doc.score.getD 0)) := by
  by_cases h : documents = []
  · subst h
    simp [rerank_documents]
  · rw [rerank_documents, if_neg h]

/-! ## In-place mutation model of the blending stage (C10)

Python dictionaries are heap objects; the caller's candidate lists hold
references into the heap.  `normalize_scores` writes `score_norm` into the
referenced dictionaries themselves (retriever.py lines 44-49), while
`dedupe_and_blend` builds *fresh* dictionaries with `{**result, ...}`
(lines 80, 94) and writes the hybrid score only into those copies
(line 107). -/

structure HDict where
  doc_id : String
  score : ℚ
  year : Option Int := none
  score_norm : Option ℚ := none
  bm25_score : Option ℚ := none
  ann_score : Option ℚ := none
  sources : List String := []
  deriving DecidableEq, Repr

instance : Inhabited HDict := ⟨⟨"", 0, none, none, none, none, []⟩⟩

def hget (h : List HDict) (r : Nat) : HDict := h.getD r default

def hset (h : List HDict) (r : Nat) (d : HDict) : List HDict := h.set r d

def setNorm (mn mx : ℚ) (d : HDict) : HDict :=
  { d with score_norm := some ((d.score - mn) / (mx - mn)) }

def setNormOne (d : HDict) : HDict :=
  { d with score_norm := some 1 }

/-- `normalize_scores` on the heap: reads the scores through the caller's
references and writes `score_norm` into the same dictionaries. -/
def normalize_scores_st (h : List HDict) (refs : List Nat) : List HDict :=
  if refs = [] then h
  else
    let scores := refs.map (fun r => (hget h r).score)
    let min_score := listMin scores
    let max_score := listMax scores
    if max_score = min_score then
      refs.foldl (fun h r => hset h r (setNormOne (hget h r))) h
    else
      refs.foldl (fun h r => hset h r (setNorm min_score max_score (hget h r))) h

/-- The fresh dictionary built for a BM25 result (retriever.py lines 80-85). -/
def freshBm25 (src : HDict) : HDict :=
  { src with
    bm25_score := some (src.score_norm.getD 0),
    ann_score := some 0,
    sources := ["bm25"] }

/-- The fresh dictionary built for an ANN-only result (lines 94-99). -/
def freshAnn (src : HDict) : HDict :=
  { src with
    bm25_score := some 0,
    ann_score := some (src.score_norm.getD 0),
    sources := ["ann"] }

/-- The in-place update of a merged copy (lines 91-92). -/
def annMerge (dst src : HDict) : HDict :=
  { dst with
    ann_score := some (src.score_norm.getD 0),
    sources := dst.sources ++ ["ann"] }

/-- The BM25 merge loop body on the heap (retriever.py lines 78-85):
`{**result, ...}` allocates a fresh dictionary at the end of the heap;
`doc_scores[doc_id] = ...` replaces the reference in place when the key
already exists, else appends it. -/
def bm25Step_st (st : List HDict × List (String × Nat)) (r : Nat) :
    List HDict × List (String × Nat) :=
  let src := hget st.1 r
  (st.1 ++ [freshBm25 src],
    if st.2.any (fun p => p.1 = src.doc_id) then
      st.2.map (fun p => if p.1 = src.doc_id then (p.1, st.1.length) else p)
    else st.2 ++ [(src.doc_id, st.1.length)])

/-- The ANN merge loop body on the heap (retriever.py lines 88-99): when the
key exists the *merged copy* is mutated in place; otherwise a fresh copy is
allocated. -/
def annStep_st (st : List HDict × List (String × Nat)) (r : Nat) :
    List HDict × List (String × Nat) :=
  let src := hget st.1 r
  match st.2.find? (fun p => p.1 = src.doc_id) with
  | some p => (hset st.1 p.2 (annMerge (hget st.1 p.2) src), st.2)
  | none => (st.1 ++ [freshAnn src], st.2 ++ [(src.doc_id, st.1.length)])

/-- The in-place hybrid-score write (retriever.py line 107). -/
def setHybrid_st (d : HDict) : HDict :=
  { d with
    score := BM25_WEIGHT * d.bm25_score.getD 0 + ANN_WEIGHT * d.ann_score.getD 0 }

/-- The hybrid-score pass on the heap (retriever.py lines 102-107): mutates
each merged dictionary's `score`. -/
def hybridStep_st (h : List HDict) (p : String × Nat) : List HDict :=
  hset h p.2 (setHybrid_st (hget h p.2))

/-- `dedupe_and_blend` on the heap: returns the final heap together with
the references of the blended output, sorted like the pure model. -/
def dedupe_and_blend_st (h : List HDict) (bm25_refs ann_refs : List Nat) :
    List HDict × List Nat :=
  let h1 := normalize_scores_st h bm25_refs
  let h2 := normalize_scores_st h1 ann_refs
  let st3 := bm25_refs.foldl bm25Step_st (h2, [])
  let st4 := ann_refs.foldl annStep_st st3
  let h5 := st4.2.foldl hybridStep_st st4.1
  (h5, List.insertionSort (fun a b =>
      (hget h5 b).score < (hget h5 a).score ∨
      ((hget h5 b).score = (hget h5 a).score ∧
        (hget h5 b).year.getD 0 ≤ (hget h5 a).year.getD 0))
    (st4.2.map (fun p => p.2)))

/-! ### Heap frame lemmas -/

theorem hget_hset_ne (h : List HDict) {r r' : Nat} (d : HDict) (hne : r' ≠ r) :
    hget (hset h r d) r' = hget h r' := by
  rw [hget, hset, hget, List.getD_eq_getElem?_getD, List.getD_eq_getElem?_getD,
    List.getElem?_set_ne (fun he => hne he.symm)]

theorem hget_hset_self (h : List HDict) {r : Nat} (d : HDict)
    (hr : r < h.length) : hget (hset h r d) r = d := by
  rw [hget, hset, List.getD_eq_getElem?_getD, List.getElem?_set_self hr]
  rfl

theorem hget_hset_oob (h : List HDict) {r : Nat} (d : HDict)
    (hr : h.length ≤ r) : hset h r d = h := List.set_eq_of_length_le hr

theorem hget_append_left (h tail : List HDict) {r : Nat} (hr : r < h.length) :
    hget (h ++ tail) r = hget h r := by
  rw [hget, hget, List.getD_eq_getElem?_getD, List.getD_eq_getElem?_getD,
    List.getElem?_append, if_pos hr]

theorem foldl_hset_length (g : HDict → HDict) (refs : List Nat) :
    ∀ h : List HDict,
      (refs.foldl (fun h r => hset h r (g (hget h r))) h).length = h.length := by
  induction refs with
  | nil => intro h; rfl
  | cons r rest ih =>
    intro h
    rw [List.foldl_cons, ih]
    exact List.length_set h r _

theorem hset_g_score (g : HDict → HDict) (hg : ∀ d, (g d).score = d.score)
    (h : List HDict) (r r' : Nat) :
    (hget (hset h r (g (hget h r))) r').score = (hget h r').score := by
  by_cases he : r' = r
  · subst he
    by_cases hlt : r' < h.length
    · rw [hget_hset_self h _ hlt, hg]
    · rw [hget_hset_oob h _ (le_of_not_lt hlt)]
  · rw [hget_hset_ne h _ he]

theorem foldl_hset_score (g : HDict → HDict) (hg : ∀ d, (g d).score = d.score)
    (refs : List Nat) :
    ∀ (h : List HDict) (r' : Nat),
      (hget (refs.foldl (fun h r => hset h r (g (hget h r))) h) r').score =
        (hget h r').score := by
  induction refs with
  | nil => intro h r'; rfl
  | cons r rest ih =>
    intro h r'
    rw [List.foldl_cons, ih, hset_g_score g hg]

theorem foldl_hset_norm_some (g : HDict → HDict)
    (hg : ∀ d, (g d).score_norm ≠ none) (refs : List Nat) :
    ∀ (h : List HDict) (r' : Nat),
      ((hget h r').score_norm ≠ none ∨ (r' ∈ refs ∧ r' < h.length)) →
      (hget (refs.foldl (fun h r => hset h r (g (hget h r))) h) r').score_norm ≠
        none := by
  induction refs with
  | nil =>
    intro h r' hyp
    rcases hyp with hs | ⟨hm, _⟩
    · exact hs
    · cases hm
  | cons r rest ih =>
    intro h r' hyp
    rw [List.foldl_cons]
    by_cases he : r' = r
    · subst he
      by_cases hlt : r' < h.length
      · refine ih _ r' (Or.inl ?_)
        rw [hget_hset_self h _ hlt]
        exact hg _
      · rcases hyp with hs | ⟨_, hlt'⟩
        · refine ih _ r' (Or.inl ?_)
          rw [hget_hset_oob h _ (le_of_not_lt hlt)]
          exact hs
        · exact absurd hlt' hlt
    · rcases hyp with hs | ⟨hm, hlt⟩
      · refine ih _ r' (Or.inl ?_)
        rw [hget_hset_ne h _ he]
        exact hs
      · rcases List.mem_cons.mp hm with h1 | h1
        · exact absurd h1 he
        · refine ih _ r' (Or.inr ⟨h1, ?_⟩)
          rw [hset, List.length_set]
          exact hlt

theorem normSt_length (h : List HDict) (refs : List Nat) :
    (normalize_scores_st h refs).length = h.length := by
  simp only [normalize_scores_st]
  split
  · rfl
  · split
    · exact foldl_hset_length _ refs h
    · exact foldl_hset_length _ refs h

theorem normSt_score (h : List HDict) (refs : List Nat) (r' : Nat) :
    (hget (normalize_scores_st h refs) r').score = (hget h r').score := by
  simp only [normalize_scores_st]
  split
  · rfl
  · split
    · exact foldl_hset_score setNormOne (fun d => rfl) refs h r'
    · exact foldl_hset_score (setNorm _ _) (fun d => rfl) refs h r'

theorem normSt_norm_some (h : List HDict) (refs : List Nat) (r' : Nat)
    (hyp : (hget h r').score_norm ≠ none ∨ (r' ∈ refs ∧ r' < h.length)) :
    (hget (normalize_scores_st h refs) r').score_norm ≠ none := by
  simp only [normalize_scores_st]
  split
  next hrefs =>
    rcases hyp with hs | ⟨hm, _⟩
    · exact hs
    · rw [hrefs] at hm
      cases hm
  next =>
    split
    · exact foldl_hset_norm_some setNormOne (fun d => by simp [setNormOne])
        refs h r' hyp
    · exact foldl_hset_norm_some (setNorm _ _) (fun d => by simp [setNorm])
        refs h r' hyp

/-- Frame invariant for the merge folds: the heap only grows beyond the
base heap, positions inside the base are untouched, and every association
reference points at a freshly allocated copy. -/
def MergeInv (base : List HDict) (st : List HDict × List (String × Nat)) : Prop :=
  base.length ≤ st.1.length ∧
  (∀ r, r < base.length → hget st.1 r = hget base r) ∧
  (∀ p ∈ st.2, base.length ≤ p.2 ∧ p.2 < st.1.length)

theorem bm25Step_st_inv (base : List HDict)
    (st : List HDict × List (String × Nat)) (r : Nat)
    (hinv : MergeInv base st) : MergeInv base (bm25Step_st st r) := by
  obtain ⟨h1, h2, h3⟩ := hinv
  simp only [MergeInv, bm25Step_st]
  refine ⟨?_, ?_, ?_⟩
  · rw [List.length_append]
    omega
  · intro r0 hr0
    rw [hget_append_left st.1 _ (lt_of_lt_of_le hr0 h1), h2 r0 hr0]
  · intro p hp
    rw [List.length_append]
    split at hp
    · rcases List.mem_map.mp hp with ⟨p0, hp0, hpp⟩
      subst hpp
      split
      · exact ⟨h1, by simp⟩
      · have := h3 p0 hp0
        exact ⟨this.1, by simp; omega⟩
    · rcases List.mem_append.mp hp with hold | hnew
      · have := h3 p hold
        exact ⟨this.1, by simp; omega⟩
      · have hp1 : p = ((hget st.1 r).doc_id, st.1.length) := by
          simpa using hnew
        rw [hp1]
        exact ⟨h1, by simp⟩

theorem annStep_st_inv (base : List HDict)
    (st : List HDict × List (String × Nat)) (r : Nat)
    (hinv : MergeInv base st) : MergeInv base (annStep_st st r) := by
  obtain ⟨h1, h2, h3⟩ := hinv
  rcases hfind : st.2.find? (fun p => p.1 = (hget st.1 r).doc_id) with _ | p
  · simp only [MergeInv, annStep_st, hfind]
    refine ⟨?_, ?_, ?_⟩
    · rw [List.length_append]
      omega
    · intro r0 hr0
      rw [hget_append_left st.1 _ (lt_of_lt_of_le hr0 h1), h2 r0 hr0]
    · intro p hp
      rw [List.length_append]
      rcases List.mem_append.mp hp with hold | hnew
      · have := h3 p hold
        exact ⟨this.1, by simp; omega⟩
      · have hp1 : p = ((hget st.1 r).doc_id, st.1.length) := by
          simpa using hnew
        rw [hp1]
        exact ⟨h1, by simp⟩
  · have hpmem : p ∈ st.2 := List.mem_of_find?_eq_some hfind
    have hpb := h3 p hpmem
    simp only [MergeInv, annStep_st, hfind]
    refine ⟨?_, ?_, ?_⟩
    · rw [hset, List.length_set]
      omega
    · intro r0 hr0
      rw [hget_hset_ne st.1 _ (by omega), h2 r0 hr0]
    · intro q hq
      have := h3 q hq
      rw [hset, List.length_set]
      exact this

theorem foldl_bm25_inv (base : List HDict) (refs : List Nat) :
    ∀ st, MergeInv base st → MergeInv base (refs.foldl bm25Step_st st) := by
  induction refs with
  | nil => intro st h; exact h
  | cons r rest ih =>
    intro st h
    rw [List.foldl_cons]
    exact ih _ (bm25Step_st_inv base st r h)

theorem foldl_ann_inv (base : List HDict) (refs : List Nat) :
    ∀ st, MergeInv base st → MergeInv base (refs.foldl annStep_st st) := by
  induction refs with
  | nil => intro st h; exact h
  | cons r rest ih =>
    intro st h
    rw [List.foldl_cons]
    exact ih _ (annStep_st_inv base st r h)

theorem foldl_hybrid_length (ps : List (String × Nat)) :
    ∀ h : List HDict, (ps.foldl hybridStep_st h).length = h.length := by
  induction ps with
  | nil => intro h; rfl
  | cons p rest ih =>
    intro h
    rw [List.foldl_cons, ih, hybridStep_st, hset, List.length_set]

theorem foldl_hybrid_frame (ps : List (String × Nat)) :
    ∀ (h : List HDict) (r : Nat), (∀ p ∈ ps, r ≠ p.2) →
      hget (ps.foldl hybridStep_st h) r = hget h r := by
  induction ps with
  | nil => intro h r _; rfl
  | cons p rest ih =>
    intro h r hne
    rw [List.foldl_cons, ih _ r (fun q hq => hne q (List.mem_cons_of_mem p hq)),
      hybridStep_st, hget_hset_ne h _ (hne p (List.mem_cons_self p rest))]

/-- C10 (amended): `normalize_scores` does mutate the caller's candidate
dictionaries in place — after `dedupe_and_blend` every input dictionary has
a `score_norm` key — but `dedupe_and_blend` copies candidates into fresh
dictionaries (`{**result, ...}`) and writes the hybrid score only into the
copies: every input dictionary keeps its raw `score`, and every reference
in the blended output points at a freshly allocated dictionary. -/
theorem dedupe_and_blend_st_frame (h : List HDict)
    (bm25_refs ann_refs : List Nat)
    (hval : ∀ r ∈ bm25_refs ++ ann_refs, r < h.length) :
    (∀ r ∈ bm25_refs ++ ann_refs,
       (hget (dedupe_and_blend_st h bm25_refs ann_refs).1 r).score =
         (hget h r).score ∧
       (hget (dedupe_and_blend_st h bm25_refs ann_refs).1 r).score_norm ≠
         none) ∧
    (∀ r ∈ (dedupe_and_blend_st h bm25_refs ann_refs).2, h.length ≤ r) := by
  simp only [dedupe_and_blend_st]
  have hlen1 : (normalize_scores_st h bm25_refs).length = h.length :=
    normSt_length h bm25_refs
  have hlen2 : (normalize_scores_st (normalize_scores_st h bm25_refs)
      ann_refs).length = h.length := by
    rw [normSt_length, hlen1]
  have hinv0 : MergeInv (normalize_scores_st (normalize_scores_st h bm25_refs)
      ann_refs) (normalize_scores_st (normalize_scores_st h bm25_refs)
      ann_refs, ([] : List (String × Nat))) :=
    ⟨le_refl _, fun r _ => rfl, by simp⟩
  have hinv3 := foldl_bm25_inv _ bm25_refs _ hinv0
  have hinv4 := foldl_ann_inv _ ann_refs _ hinv3
  obtain ⟨hi1, hi2, hi3⟩ := hinv4
  constructor
  · intro r hr
    have hrlt : r < h.length := hval r hr
    have hne : ∀ p ∈ (ann_refs.foldl annStep_st (bm25_refs.foldl bm25Step_st
        (normalize_scores_st (normalize_scores_st h bm25_refs) ann_refs,
          []))).2, r ≠ p.2 := by
      intro p hp
      have := (hi3 p hp).1
      rw [hlen2] at this
      omega
    have hframe : hget ((ann_refs.foldl annStep_st (bm25_refs.foldl
        bm25Step_st (normalize_scores_st (normalize_scores_st h bm25_refs)
          ann_refs, []))).2.foldl hybridStep_st
        (ann_refs.foldl annStep_st (bm25_refs.foldl bm25Step_st
          (normalize_scores_st (normalize_scores_st h bm25_refs)
            ann_refs, []))).1) r =
        hget (normalize_scores_st (normalize_scores_st h bm25_refs)
          ann_refs) r := by
      rw [foldl_hybrid_frame _ _ r hne]
      exact hi2 r (by rw [hlen2]; exact hrlt)
    rw [hframe]
    constructor
    · rw [normSt_score, normSt_score]
    · rcases List.mem_append.mp hr with hb | ha
      · refine normSt_norm_some _ ann_refs r (Or.inl ?_)
        refine normSt_norm_some h bm25_refs r (Or.inr ⟨hb, hrlt⟩)
      · refine normSt_norm_some _ ann_refs r (Or.inr ⟨ha, ?_⟩)
        rw [hlen1]
        exact hrlt
  · intro r hr
    have hr2 := (List.perm_insertionSort _ _).subset hr
    rcases List.mem_map.mp hr2 with ⟨p, hp, hpr⟩
    have := (hi3 p hp).1
    rw [hlen2] at this
    rw [← hpr]
    exact this

/-- Witness for the amended C10 at a concrete three-dictionary heap. -/
theorem dedupe_and_blend_st_frame_witness :
    (∀ r ∈ ([0] ++ [1, 2] : List Nat), r <
      ([⟨"A", 10, none, none, none, none, []⟩,
        ⟨"A", 9/10, none, none, none, none, []⟩,
        ⟨"B", 1/2, none, none, none, none, []⟩] : List HDict).length) ∧
    ((∀ r ∈ ([0] ++ [1, 2] : List Nat),
       (hget (dedupe_and_blend_st
           [⟨"A", 10, none, none, none, none, []⟩,
            ⟨"A", 9/10, none, none, none, none, []⟩,
            ⟨"B", 1/2, none, none, none, none, []⟩] [0] [1, 2]).1 r).score =
         (hget [⟨"A", 10, none, none, none, none, []⟩,
            ⟨"A", 9/10, none, none, none, none, []⟩,
            ⟨"B", 1/2, none, none, none, none, []⟩] r).score ∧
       (hget (dedupe_and_blend_st
           [⟨"A", 10, none, none, none, none, []⟩,
            ⟨"A", 9/10, none, none, none, none, []⟩,
            ⟨"B", 1/2, none, none, none, none, []⟩] [0] [1, 2]).1 r).score_norm ≠
         none) ∧
     (∀ r ∈ (dedupe_and_blend_st
         [⟨"A", 10, none, none, none, none, []⟩,
          ⟨"A", 9/10, none, none, none, none, []⟩,
          ⟨"B", 1/2, none, none, none, none, []⟩] [0] [1, 2]).2,
       ([⟨"A", 10, none, none, none, none, []⟩,
         ⟨"A", 9/10, none, none, none, none, []⟩,
         ⟨"B", 1/2, none, none, none, none, []⟩] : List HDict).length ≤ r)) :=
  ⟨by simp,
   dedupe_and_blend_st_frame
     [⟨"A", 10, none, none, none, none, []⟩,
      ⟨"A", 9/10, none, none, none, none, []⟩,
      ⟨"B", 1/2, none, none, none, none, []⟩] [0] [1, 2] (by simp)⟩

/-- C10 (counterexample): on the heap holding the worked example's three
candidate dictionaries, the caller's first dictionary still has its raw
score `10` after `dedupe_and_blend` — it is not overwritten with the hybrid
score (which is `1` for that document) — so the caller's input lists do
retain the raw retrieval scores. -/
theorem dedupe_and_blend_st_raw_score_retained :
    (hget (dedupe_and_blend_st
        [⟨"A", 10, none, none, none, none, []⟩,
         ⟨"A", 9/10, none, none, none, none, []⟩,
         ⟨"B", 1/2, none, none, none, none, []⟩] [0] [1, 2]).1 0).score = 10 ∧
    ¬ ((10 : ℚ) = 1) := by
  have h1 : ((9 : ℚ) / 10 = 2⁻¹) = False := by norm_num
  constructor
  · simp [dedupe_and_blend_st, normalize_scores_st, bm25Step_st, annStep_st,
      hybridStep_st, hget, hset, setNorm, setNormOne, freshBm25, freshAnn,
      annMerge, setHybrid_st, listMin, listMax, BM25_WEIGHT, ANN_WEIGHT,
      List.getD_eq_getElem?_getD, h1]
  · norm_num
